import Mathlib

/-!
Verification of the bridges (Hashi) puzzle repository: a shallow embedding of
the puzzle data model, the solution verifier, the candidate deriver, the
constraint model and the randomized generator, with theorems checking the
specification's claims against the code.

Conventions of the embedding:
* Python `int` is `Int`; board coordinates are `Int` pairs.
* Python dicts are insertion-ordered association lists (`PyDict`); a dict
  access that would raise `KeyError` is modelled by `Option` (`none` = crash).
* Randomness (`randint`, `choice`, `random()`) is modelled by an oracle
  stream `Nat → Nat`; each primitive consumes the head of the stream and maps
  it onto the primitive's exact range of possible outcomes, so quantifying
  over all streams quantifies over all possible sequences of random draws.
-/

namespace Bridges

/-- Island of a puzzle: position and required degree (puzzle.py `Island`). -/
structure Island where
  x : Int
  y : Int
  degree : Int
deriving DecidableEq, Repr

/-- Bridge between two islands, single (weight 1) or double (puzzle.py `Bridge`). -/
structure Bridge where
  node1 : Island
  node2 : Island
  single : Bool
deriving DecidableEq, Repr

/-- Puzzle: board size, islands, optional solution (puzzle.py `Puzzle`). -/
structure Puzzle where
  width : Int
  height : Int
  islands : List Island
  solution : Option (List Bridge)
deriving DecidableEq, Repr

/-- puzzle.py `Puzzle.without_solution`. -/
def Puzzle.without_solution (p : Puzzle) : Puzzle :=
  ⟨p.width, p.height, p.islands, none⟩

/-- puzzle.py `Puzzle.with_solution`. -/
def Puzzle.with_solution (p : Puzzle) (s : List Bridge) : Puzzle :=
  ⟨p.width, p.height, p.islands, some s⟩

/-- A board position `(x, y)`. -/
abbrev Pos := Int × Int

/-- Position of an island. -/
def Island.pos (i : Island) : Pos := (i.x, i.y)

/-- Position of a bridge's first endpoint. -/
def Bridge.pos1 (b : Bridge) : Pos := (b.node1.x, b.node1.y)

/-- Position of a bridge's second endpoint. -/
def Bridge.pos2 (b : Bridge) : Pos := (b.node2.x, b.node2.y)

/-- Python dict modelled as an insertion-ordered association list. -/
abbrev PyDict (α β : Type) := List (α × β)

/-- Python `d[k] = v`: replace the value of the first entry with key `k`
keeping its place, else append a new entry at the end. -/
def pdSet {α β : Type} [DecidableEq α] : PyDict α β → α → β → PyDict α β
  | [], k, v => [(k, v)]
  | (k', v') :: rest, k, v =>
      if k' = k then (k', v) :: rest else (k', v') :: pdSet rest k v

/-- Python `d[k]` read: `none` models a `KeyError`. -/
def pdGet {α β : Type} [DecidableEq α] : PyDict α β → α → Option β
  | [], _ => none
  | (k', v') :: rest, k => if k' = k then some v' else pdGet rest k

/-- Python in-place update `d[k] = f(d[k])`: `none` models a `KeyError`. -/
def pdModify {α β : Type} [DecidableEq α] : PyDict α β → α → (β → β) → Option (PyDict α β)
  | [], _, _ => none
  | (k', v') :: rest, k, f =>
      if k' = k then some ((k', f v') :: rest)
      else (pdModify rest k f).map (fun r => (k', v') :: r)

/-- Python `d.values()` in insertion order. -/
def pdValues {α β : Type} : PyDict α β → List β :=
  List.map Prod.snd

/-- Weight a bridge contributes to each endpoint's degree (1 single, 2 double). -/
def bridgeWeight (b : Bridge) : Int := if b.single then 1 else 2

/-- The dict `{(island.x, island.y): island.degree for island in islands}`. -/
def degreeDict (islands : List Island) : PyDict Pos Int :=
  islands.foldl (fun d i => pdSet d i.pos i.degree) []

/-- One iteration of the degree-subtraction loop of `check_solution`. -/
def applyBridgeDeg (d : PyDict Pos Int) (b : Bridge) : Option (PyDict Pos Int) := do
  let d1 ← pdModify d b.pos1 (fun v => v - bridgeWeight b)
  pdModify d1 b.pos2 (fun v => v - bridgeWeight b)

/-- The `island_degree` dict after the subtraction loop of `check_solution`. -/
def degreeResiduals (islands : List Island) (sol : List Bridge) : Option (PyDict Pos Int) :=
  sol.foldlM applyBridgeDeg (degreeDict islands)

/-- One iteration of the neighbour-building loop of `check_solution`. -/
def applyBridgeNb (d : PyDict Pos (List Pos)) (b : Bridge) : Option (PyDict Pos (List Pos)) := do
  let d1 ← pdModify d b.pos1 (fun l => l ++ [b.pos2])
  pdModify d1 b.pos2 (fun l => l ++ [b.pos1])

/-- The `neighbours` dict of `check_solution`. -/
def neighboursDict (islands : List Island) (sol : List Bridge) :
    Option (PyDict Pos (List Pos)) :=
  sol.foldlM applyBridgeNb (islands.foldl (fun d i => pdSet d i.pos ([] : List Pos)) [])

/-- Count of yet-unvisited entries of the BFS `visited_dict`, used as the
primary termination measure of the BFS loop. -/
def unvisitedCount (visited : PyDict Pos Bool) : Nat :=
  (visited.filter (fun kv => !kv.2)).length

theorem pdModify_unvisited_lt {visited visited' : PyDict Pos Bool} {k : Pos}
    (hget : pdGet visited k = some false)
    (hmod : pdModify visited k (fun _ => true) = some visited') :
    unvisitedCount visited' < unvisitedCount visited := by
  induction visited generalizing visited' with
  | nil => simp [pdGet] at hget
  | cons hd rest ih =>
      obtain ⟨k', v'⟩ := hd
      by_cases hk : k' = k
      · subst hk
        simp [pdGet] at hget
        simp [pdModify] at hmod
        subst hget
        subst hmod
        simp [unvisitedCount, List.filter]
      · simp [pdGet, hk] at hget
        simp [pdModify, hk] at hmod
        obtain ⟨rest', hrest', hcons⟩ := hmod
        subst hcons
        have := ih hget hrest'
        simp [unvisitedCount, List.filter] at this ⊢
        cases v' <;> simp <;> omega

/-- The BFS loop of `check_solution`: a deque of positions to visit, the
`visited_dict`, and the `neighbours` dict; `none` models a `KeyError`. -/
def bfsLoop (nb : PyDict Pos (List Pos)) :
    List Pos → PyDict Pos Bool → Option (PyDict Pos Bool)
  | [], visited => some visited
  | current :: rest, visited =>
      match hget : pdGet visited current with
      | none => none
      | some true => bfsLoop nb rest visited
      | some false =>
          match hmod : pdModify visited current (fun _ => true), pdGet nb current with
          | some visited', some ns => bfsLoop nb (rest ++ ns) visited'
          | some _, none => none
          | none, _ => none
termination_by queue visited => (unvisitedCount visited, queue.length)
decreasing_by
  · exact Prod.Lex.right _ (by simp)
  · exact Prod.Lex.left _ _ (pdModify_unvisited_lt hget hmod)

/-- Failure message of the degree check. -/
def degreeMsg : String := "Islands do not match bridges"

/-- Failure message of the connectivity check. -/
def connectMsg : String := "Islands are not fully connected"

/-- puzzle.py `Puzzle.check_solution`: degree check then BFS connectivity
check; `none` models a raised exception (assert failure, KeyError or
IndexError on an islandless puzzle). -/
def Puzzle.check_solution (p : Puzzle) : Option (Bool × String) := do
  let sol ← p.solution
  let residuals ← degreeResiduals p.islands sol
  if (pdValues residuals).any (fun v => v ≠ 0) then
    return (false, degreeMsg)
  else
    let nb ← neighboursDict p.islands sol
    let first ← p.islands.head?
    let visited ← bfsLoop nb [first.pos]
        (p.islands.foldl (fun d i => pdSet d i.pos false) [])
    if (pdValues visited).any (fun v => !v) then
      return (false, connectMsg)
    else
      return (true, "Success")

/-- Contribution of one bridge to the degree of the island at `k` (both
endpoints counted, as in the subtraction loop of `check_solution`). -/
def bridgeContrib (b : Bridge) (k : Pos) : Int :=
  (if b.pos1 = k then bridgeWeight b else 0) + (if b.pos2 = k then bridgeWeight b else 0)

/-- Total incident bridge weight of a solution at position `k`. -/
def incidentSum (sol : List Bridge) (k : Pos) : Int :=
  (sol.map (fun b => bridgeContrib b k)).sum

/-- Neighbour positions one bridge contributes at `k`, in the order the
neighbour-building loop of `check_solution` appends them. -/
def nbContrib (b : Bridge) (k : Pos) : List Pos :=
  (if b.pos1 = k then [b.pos2] else []) ++ (if b.pos2 = k then [b.pos1] else [])

/-- Full neighbour list of `k` induced by a solution. -/
def nbList (sol : List Bridge) (k : Pos) : List Pos :=
  (sol.map (fun b => nbContrib b k)).join

/-- Two positions are joined by some bridge of the solution. -/
def bridgeAdj (sol : List Bridge) (p q : Pos) : Prop :=
  ∃ b ∈ sol, (b.pos1 = p ∧ b.pos2 = q) ∨ (b.pos2 = p ∧ b.pos1 = q)

/-- Reachability in the undirected graph induced by a solution's bridges. -/
def Reachable (sol : List Bridge) : Pos → Pos → Prop :=
  Relation.ReflTransGen (bridgeAdj sol)

theorem mem_nbContrib {b : Bridge} {k q : Pos} :
    q ∈ nbContrib b k ↔ (b.pos1 = k ∧ b.pos2 = q) ∨ (b.pos2 = k ∧ b.pos1 = q) := by
  unfold nbContrib
  by_cases h1 : b.pos1 = k <;> by_cases h2 : b.pos2 = k <;>
    simp [h1, h2, eq_comm]

theorem mem_nbList {sol : List Bridge} {k q : Pos} :
    q ∈ nbList sol k ↔ bridgeAdj sol k q := by
  simp only [nbList, bridgeAdj, List.mem_join, List.mem_map]
  constructor
  · rintro ⟨l, ⟨b, hb, rfl⟩, hq⟩
    exact ⟨b, hb, mem_nbContrib.mp hq⟩
  · rintro ⟨b, hb, h⟩
    exact ⟨_, ⟨b, hb, rfl⟩, mem_nbContrib.mpr h⟩

theorem pdGet_mem {α β : Type} [DecidableEq α] {d : PyDict α β} {k : α} {v : β}
    (h : pdGet d k = some v) : (k, v) ∈ d := by
  induction d with
  | nil => simp [pdGet] at h
  | cons hd rest ih =>
      obtain ⟨k', v'⟩ := hd
      by_cases hk : k' = k
      · subst hk; simp [pdGet] at h; simp [h]
      · simp [pdGet, hk] at h
        exact List.mem_cons_of_mem _ (ih h)

theorem pdGet_isSome_iff {α β : Type} [DecidableEq α] {d : PyDict α β} {k : α} :
    (pdGet d k).isSome ↔ k ∈ d.map Prod.fst := by
  induction d with
  | nil => simp [pdGet]
  | cons hd rest ih =>
      obtain ⟨k', v'⟩ := hd
      by_cases hk : k' = k
      · subst hk; simp [pdGet]
      · simp [pdGet, hk, ih, Ne.symm hk]

theorem pdGet_of_mem_nodup {α β : Type} [DecidableEq α] {d : PyDict α β} {k : α} {v : β}
    (hnd : (d.map Prod.fst).Nodup) (h : (k, v) ∈ d) : pdGet d k = some v := by
  induction d with
  | nil => simp at h
  | cons hd rest ih =>
      obtain ⟨k', v'⟩ := hd
      simp only [List.map_cons, List.nodup_cons] at hnd
      rcases List.mem_cons.mp h with heq | hmem
      · cases heq
        simp [pdGet]
      · have hne : k' ≠ k := by
          rintro rfl
          exact hnd.1 (List.mem_map.mpr ⟨(k', v), hmem, rfl⟩)
        simp only [pdGet, if_neg hne]
        exact ih hnd.2 hmem

theorem pdModify_keys {α β : Type} [DecidableEq α] {d d' : PyDict α β} {k : α} {f : β → β}
    (h : pdModify d k f = some d') : d'.map Prod.fst = d.map Prod.fst := by
  induction d generalizing d' with
  | nil => simp [pdModify] at h
  | cons hd rest ih =>
      obtain ⟨k', v'⟩ := hd
      by_cases hk : k' = k
      · subst hk; simp [pdModify] at h; subst h; simp
      · simp [pdModify, hk] at h
        obtain ⟨r, hr, rfl⟩ := h
        simp [ih hr]

theorem pdModify_isSome {α β : Type} [DecidableEq α] {d : PyDict α β} {k : α} {f : β → β}
    (h : k ∈ d.map Prod.fst) : ∃ d', pdModify d k f = some d' := by
  induction d with
  | nil => simp at h
  | cons hd rest ih =>
      obtain ⟨k', v'⟩ := hd
      by_cases hk : k' = k
      · subst hk; exact ⟨(k', f v') :: rest, by simp [pdModify]⟩
      · have hmem : k ∈ rest.map Prod.fst := by
          rcases (by simpa using h : k = k' ∨ k ∈ rest.map Prod.fst) with hc | hm
          · exact absurd hc.symm hk
          · exact hm
        obtain ⟨r, hr⟩ := ih hmem
        exact ⟨(k', v') :: r, by simp [pdModify, hk, hr]⟩

theorem pdGet_pdModify_self {α β : Type} [DecidableEq α] {d d' : PyDict α β} {k : α} {f : β → β}
    (h : pdModify d k f = some d') : pdGet d' k = (pdGet d k).map f := by
  induction d generalizing d' with
  | nil => simp [pdModify] at h
  | cons hd rest ih =>
      obtain ⟨k', v'⟩ := hd
      by_cases hk : k' = k
      · subst hk; simp [pdModify] at h; subst h; simp [pdGet]
      · simp [pdModify, hk] at h
        obtain ⟨r, hr, rfl⟩ := h
        simp [pdGet, hk, ih hr]

theorem pdGet_pdModify_ne {α β : Type} [DecidableEq α] {d d' : PyDict α β} {k k' : α} {f : β → β}
    (h : pdModify d k f = some d') (hne : k' ≠ k) : pdGet d' k' = pdGet d k' := by
  induction d generalizing d' with
  | nil => simp [pdModify] at h
  | cons hd rest ih =>
      obtain ⟨k0, v0⟩ := hd
      by_cases hk : k0 = k
      · subst hk; simp [pdModify] at h; subst h
        have hne0 : k0 ≠ k' := fun hh => hne hh.symm
        simp [pdGet, hne0]
      · simp [pdModify, hk] at h
        obtain ⟨r, hr, rfl⟩ := h
        by_cases hk0 : k0 = k'
        · subst hk0; simp [pdGet]
        · simp [pdGet, hk0, ih hr]

theorem pdSet_append {α β : Type} [DecidableEq α] {d : PyDict α β} {k : α} {v : β}
    (h : k ∉ d.map Prod.fst) : pdSet d k v = d ++ [(k, v)] := by
  induction d with
  | nil => simp [pdSet]
  | cons hd rest ih =>
      obtain ⟨k', v'⟩ := hd
      simp only [List.map_cons, List.mem_cons, not_or] at h
      simp [pdSet, Ne.symm h.1, ih h.2]

/-- Folding `pdSet` over islands with fresh pairwise-distinct keys builds the
corresponding association list. -/
theorem foldl_pdSet_eq {β : Type} (g : Island → β) :
    ∀ (l : List Island) (init : PyDict Pos β),
    (∀ i ∈ l, i.pos ∉ init.map Prod.fst) →
    (l.map Island.pos).Nodup →
    l.foldl (fun d i => pdSet d i.pos (g i)) init = init ++ l.map (fun i => (i.pos, g i)) := by
  intro l
  induction l with
  | nil => simp
  | cons hd tl ih =>
      intro init hfresh hnd
      simp only [List.map_cons, List.nodup_cons] at hnd
      rw [List.foldl_cons, pdSet_append (hfresh hd (by simp))]
      rw [ih (init ++ [(hd.pos, g hd)]) ?_ hnd.2]
      · simp
      · intro i hi
        simp only [List.map_append, List.mem_append] at *
        push_neg
        refine ⟨fun hmem => hfresh i (by simp [hi]) hmem, ?_⟩
        simp only [List.map_cons]
        intro hc
        simp at hc
        exact hnd.1 (by rw [← hc]; exact List.mem_map_of_mem _ hi)

theorem applyBridgeDeg_spec {d : PyDict Pos Int} {b : Bridge}
    (h1 : b.pos1 ∈ d.map Prod.fst) (h2 : b.pos2 ∈ d.map Prod.fst) :
    ∃ d', applyBridgeDeg d b = some d' ∧ d'.map Prod.fst = d.map Prod.fst ∧
      ∀ k, pdGet d' k = (pdGet d k).map (fun v => v - bridgeContrib b k) := by
  obtain ⟨d1, hd1⟩ := pdModify_isSome (f := fun v => v - bridgeWeight b) h1
  have hk1 : d1.map Prod.fst = d.map Prod.fst := pdModify_keys hd1
  obtain ⟨d2, hd2⟩ := pdModify_isSome (f := fun v => v - bridgeWeight b) (hk1 ▸ h2)
  refine ⟨d2, by simp [applyBridgeDeg, hd1, hd2], by rw [pdModify_keys hd2, hk1], ?_⟩
  intro k
  have hg1 : pdGet d1 k = if b.pos1 = k then
      (pdGet d k).map (fun v => v - bridgeWeight b) else pdGet d k := by
    by_cases e : b.pos1 = k
    · subst e; simp [pdGet_pdModify_self hd1]
    · simp [e, pdGet_pdModify_ne hd1 (fun hc => e hc.symm)]
  have hg2 : pdGet d2 k = if b.pos2 = k then
      (pdGet d1 k).map (fun v => v - bridgeWeight b) else pdGet d1 k := by
    by_cases e : b.pos2 = k
    · subst e; simp [pdGet_pdModify_self hd2]
    · simp [e, pdGet_pdModify_ne hd2 (fun hc => e hc.symm)]
  rw [hg2, hg1]
  by_cases e1 : b.pos1 = k <;> by_cases e2 : b.pos2 = k <;>
    simp only [e1, e2, bridgeContrib, if_true, if_false, Option.map_map] <;>
    cases pdGet d k <;> simp [Function.comp] <;> ring_nf

theorem applyBridgeNb_spec {d : PyDict Pos (List Pos)} {b : Bridge}
    (h1 : b.pos1 ∈ d.map Prod.fst) (h2 : b.pos2 ∈ d.map Prod.fst) :
    ∃ d', applyBridgeNb d b = some d' ∧ d'.map Prod.fst = d.map Prod.fst ∧
      ∀ k, pdGet d' k = (pdGet d k).map (fun l => l ++ nbContrib b k) := by
  obtain ⟨d1, hd1⟩ := pdModify_isSome (f := fun l => l ++ [b.pos2]) h1
  have hk1 : d1.map Prod.fst = d.map Prod.fst := pdModify_keys hd1
  obtain ⟨d2, hd2⟩ := pdModify_isSome (f := fun l => l ++ [b.pos1]) (hk1 ▸ h2)
  refine ⟨d2, by simp [applyBridgeNb, hd1, hd2], by rw [pdModify_keys hd2, hk1], ?_⟩
  intro k
  have hg1 : pdGet d1 k = if b.pos1 = k then
      (pdGet d k).map (fun l => l ++ [b.pos2]) else pdGet d k := by
    by_cases e : b.pos1 = k
    · subst e; simp [pdGet_pdModify_self hd1]
    · simp [e, pdGet_pdModify_ne hd1 (fun hc => e hc.symm)]
  have hg2 : pdGet d2 k = if b.pos2 = k then
      (pdGet d1 k).map (fun l => l ++ [b.pos1]) else pdGet d1 k := by
    by_cases e : b.pos2 = k
    · subst e; simp [pdGet_pdModify_self hd2]
    · simp [e, pdGet_pdModify_ne hd2 (fun hc => e hc.symm)]
  rw [hg2, hg1]
  by_cases e1 : b.pos1 = k <;> by_cases e2 : b.pos2 = k <;>
    simp only [e1, e2, nbContrib, if_true, if_false, Option.map_map] <;>
    cases pdGet d k <;> simp [Function.comp]

theorem degreeResiduals_fold (sol : List Bridge) :
    ∀ d : PyDict Pos Int,
    (∀ b ∈ sol, b.pos1 ∈ d.map Prod.fst ∧ b.pos2 ∈ d.map Prod.fst) →
    ∃ d', sol.foldlM applyBridgeDeg d = some d' ∧ d'.map Prod.fst = d.map Prod.fst ∧
      ∀ k, pdGet d' k = (pdGet d k).map (fun v => v - incidentSum sol k) := by
  induction sol with
  | nil =>
      intro d _
      refine ⟨d, by simp, rfl, fun k => ?_⟩
      simp [incidentSum]
  | cons b rest ih =>
      intro d hend
      obtain ⟨d1, hd1, hk1, hg1⟩ :=
        applyBridgeDeg_spec (hend b (by simp)).1 (hend b (by simp)).2
      obtain ⟨d', hd', hk', hg'⟩ := ih d1 (fun b' hb' => by
        rw [hk1]; exact hend b' (List.mem_cons_of_mem _ hb'))
      refine ⟨d', by simp [hd1, hd'], by rw [hk', hk1], fun k => ?_⟩
      rw [hg' k, hg1 k]
      simp [incidentSum, Option.map_map]
      cases pdGet d k <;> simp [Function.comp] <;> ring_nf

theorem neighbours_fold (sol : List Bridge) :
    ∀ d : PyDict Pos (List Pos),
    (∀ b ∈ sol, b.pos1 ∈ d.map Prod.fst ∧ b.pos2 ∈ d.map Prod.fst) →
    ∃ d', sol.foldlM applyBridgeNb d = some d' ∧ d'.map Prod.fst = d.map Prod.fst ∧
      ∀ k, pdGet d' k = (pdGet d k).map (fun l => l ++ nbList sol k) := by
  induction sol with
  | nil =>
      intro d _
      refine ⟨d, by simp, rfl, fun k => ?_⟩
      simp [nbList]
  | cons b rest ih =>
      intro d hend
      obtain ⟨d1, hd1, hk1, hg1⟩ :=
        applyBridgeNb_spec (hend b (by simp)).1 (hend b (by simp)).2
      obtain ⟨d', hd', hk', hg'⟩ := ih d1 (fun b' hb' => by
        rw [hk1]; exact hend b' (List.mem_cons_of_mem _ hb'))
      refine ⟨d', by simp [hd1, hd'], by rw [hk', hk1], fun k => ?_⟩
      rw [hg' k, hg1 k]
      simp [nbList, Option.map_map]
      cases pdGet d k <;> simp [Function.comp]

theorem bfsLoop_nil (nb : PyDict Pos (List Pos)) (visited : PyDict Pos Bool) :
    bfsLoop nb [] visited = some visited := by
  rw [bfsLoop]

theorem bfsLoop_skip {nb : PyDict Pos (List Pos)} {visited : PyDict Pos Bool}
    {current : Pos} {rest : List Pos}
    (h : pdGet visited current = some true) :
    bfsLoop nb (current :: rest) visited = bfsLoop nb rest visited := by
  rw [bfsLoop]
  split <;> simp_all

theorem bfsLoop_mark {nb : PyDict Pos (List Pos)} {visited visited' : PyDict Pos Bool}
    {current : Pos} {rest ns : List Pos}
    (hget : pdGet visited current = some false)
    (hmod : pdModify visited current (fun _ => true) = some visited')
    (hnb : pdGet nb current = some ns) :
    bfsLoop nb (current :: rest) visited = bfsLoop nb (rest ++ ns) visited' := by
  rw [bfsLoop]
  split <;> simp_all
  split <;> simp_all

/-- Adjacency list of `k` in the neighbours dict (empty when absent). -/
def adjOf (nb : PyDict Pos (List Pos)) (k : Pos) : List Pos :=
  (pdGet nb k).getD []

/-- One traversal step over the neighbours dict. -/
def NbAdj (nb : PyDict Pos (List Pos)) (p q : Pos) : Prop :=
  q ∈ adjOf nb p

/-- Reachability over the neighbours dict. -/
def NbReach (nb : PyDict Pos (List Pos)) : Pos → Pos → Prop :=
  Relation.ReflTransGen (NbAdj nb)

/-- Full specification of the BFS loop: it terminates without a key error,
preserves the key set of the visited dict, marks exactly what was already
marked or is reachable from the queue, marks every queue element, and its
marked set is closed under adjacency. -/
theorem bfsLoop_spec (nb : PyDict Pos (List Pos)) :
    ∀ (queue : List Pos) (visited : PyDict Pos Bool),
    (∀ q ∈ queue, q ∈ visited.map Prod.fst) →
    (∀ k ∈ visited.map Prod.fst,
      ∃ ns, pdGet nb k = some ns ∧ ∀ q ∈ ns, q ∈ visited.map Prod.fst) →
    (∀ k, pdGet visited k = some true →
      ∀ q ∈ adjOf nb k, pdGet visited q = some true ∨ q ∈ queue) →
    ∃ out, bfsLoop nb queue visited = some out ∧
      out.map Prod.fst = visited.map Prod.fst ∧
      (∀ k, pdGet visited k = some true → pdGet out k = some true) ∧
      (∀ q ∈ queue, pdGet out q = some true) ∧
      (∀ k, pdGet out k = some true → ∀ q ∈ adjOf nb k, pdGet out q = some true) ∧
      (∀ k, pdGet out k = some true →
        pdGet visited k = some true ∨ ∃ q ∈ queue, NbReach nb q k) := by
  intro queue visited
  induction queue, visited using bfsLoop.induct nb with
  | case1 visited =>
      intro _ _ hc
      refine ⟨visited, bfsLoop_nil nb visited, rfl, fun k h => h, by simp, ?_,
        fun k h => Or.inl h⟩
      intro k hk q hq
      rcases hc k hk q hq with h | h
      · exact h
      · simp at h
  | case2 current rest visited hget =>
      intro ha _ _
      have hs := pdGet_isSome_iff.mpr (ha current (by simp))
      rw [hget] at hs
      simp at hs
  | case3 current rest visited hget ih =>
      intro ha hb hc
      obtain ⟨out, hrun, hkeys, hmono, hqueue, hclosed, hsound⟩ := ih
        (fun q hq => ha q (List.mem_cons_of_mem _ hq))
        hb
        (fun k hk q hq => by
          rcases hc k hk q hq with h | h
          · exact Or.inl h
          · rcases List.mem_cons.mp h with rfl | h
            · exact Or.inl hget
            · exact Or.inr h)
      refine ⟨out, (bfsLoop_skip hget).trans hrun, hkeys, hmono, ?_, hclosed, ?_⟩
      · intro q hq
        rcases List.mem_cons.mp hq with rfl | h
        · exact hmono q hget
        · exact hqueue q h
      · intro k hk
        rcases hsound k hk with h | ⟨q, hq, hr⟩
        · exact Or.inl h
        · exact Or.inr ⟨q, List.mem_cons_of_mem _ hq, hr⟩
  | case4 current rest visited hget visited2 ns hmod hnb ih =>
      intro ha hb hc
      have hkeys2 : visited2.map Prod.fst = visited.map Prod.fst := pdModify_keys hmod
      have hcur_true : pdGet visited2 current = some true := by
        rw [pdGet_pdModify_self hmod, hget]
        rfl
      have hpres : ∀ k, pdGet visited k = some true → pdGet visited2 k = some true := by
        intro k h
        by_cases e : k = current
        · subst e
          rw [h] at hget
          simp at hget
        · rw [pdGet_pdModify_ne hmod e]
          exact h
      have hadj : adjOf nb current = ns := by simp [adjOf, hnb]
      obtain ⟨out, hrun, hkeys, hmono, hqueue, hclosed, hsound⟩ := ih
        (fun q hq => by
          rw [hkeys2]
          rcases List.mem_append.mp hq with h | h
          · exact ha q (List.mem_cons_of_mem _ h)
          · obtain ⟨ns0, hns0, hsub⟩ := hb current (ha current (by simp))
            rw [hnb] at hns0
            cases hns0
            exact hsub q h)
        (fun k hk => by
          rw [hkeys2] at hk
          obtain ⟨ns0, hns0, hsub⟩ := hb k hk
          exact ⟨ns0, hns0, fun q hq => by rw [hkeys2]; exact hsub q hq⟩)
        (fun k hk q hq => by
          by_cases e : k = current
          · subst e
            rw [hadj] at hq
            exact Or.inr (List.mem_append.mpr (Or.inr hq))
          · rw [pdGet_pdModify_ne hmod e] at hk
            rcases hc k hk q hq with h | h
            · exact Or.inl (hpres q h)
            · rcases List.mem_cons.mp h with rfl | h
              · exact Or.inl hcur_true
              · exact Or.inr (List.mem_append.mpr (Or.inl h)))
      refine ⟨out, (bfsLoop_mark hget hmod hnb).trans hrun, hkeys.trans hkeys2,
        fun k h => hmono k (hpres k h), ?_, hclosed, ?_⟩
      · intro q hq
        rcases List.mem_cons.mp hq with rfl | h
        · exact hmono q hcur_true
        · exact hqueue q (List.mem_append.mpr (Or.inl h))
      · intro k hk
        rcases hsound k hk with h | ⟨q, hq, hr⟩
        · by_cases e : k = current
          · subst e
            exact Or.inr ⟨k, by simp, Relation.ReflTransGen.refl⟩
          · rw [pdGet_pdModify_ne hmod e] at h
            exact Or.inl h
        · rcases List.mem_append.mp hq with h | h
          · exact Or.inr ⟨q, List.mem_cons_of_mem _ h, hr⟩
          · refine Or.inr ⟨current, by simp, Relation.ReflTransGen.head ?_ hr⟩
            have hq2 : q ∈ adjOf nb current := by rw [hadj]; exact h
            exact hq2
  | case5 current rest visited hget v2 hmod hnb =>
      intro ha hb _
      obtain ⟨ns0, hns0, _⟩ := hb current (ha current (by simp))
      rw [hnb] at hns0
      simp at hns0
  | case6 current rest visited hget hmod =>
      intro ha _ _
      obtain ⟨d2, hd2⟩ := pdModify_isSome (f := fun _ => true) (ha current (by simp))
      rw [hmod] at hd2
      simp at hd2

/-- C9: `without_solution` then `with_solution` preserves width, height and
islands for every puzzle and every supplied solution, and when the supplied
solution is the puzzle's own attached solution the round trip is the
identity. -/
theorem without_with_solution_roundtrip (p : Puzzle) (s : List Bridge) :
    (p.without_solution.with_solution s).width = p.width ∧
    (p.without_solution.with_solution s).height = p.height ∧
    (p.without_solution.with_solution s).islands = p.islands ∧
    (p.solution = some s → p.without_solution.with_solution s = p) := by
  refine ⟨rfl, rfl, rfl, fun h => ?_⟩
  cases p
  simp [Puzzle.without_solution, Puzzle.with_solution] at h ⊢
  exact h.symm

theorem without_with_solution_roundtrip_witness :
    (Puzzle.mk 4 4 [⟨0, 0, 3⟩] (some [])).without_solution.with_solution [] =
      Puzzle.mk 4 4 [⟨0, 0, 3⟩] (some []) :=
  (without_with_solution_roundtrip (Puzzle.mk 4 4 [⟨0, 0, 3⟩] (some [])) []).2.2.2 rfl

theorem keys_map_pos {islands : List Island} {β : Type} (g : Island → β) :
    (islands.map (fun j => (j.pos, g j))).map Prod.fst = islands.map Island.pos := by
  simp [List.map_map]

theorem degreeDict_eq {islands : List Island} (hnd : (islands.map Island.pos).Nodup) :
    degreeDict islands = islands.map (fun i => (i.pos, i.degree)) := by
  simpa using foldl_pdSet_eq (fun i => i.degree) islands [] (by simp) hnd

theorem nbInit_eq {islands : List Island} (hnd : (islands.map Island.pos).Nodup) :
    islands.foldl (fun d i => pdSet d i.pos ([] : List Pos)) [] =
      islands.map (fun i => (i.pos, ([] : List Pos))) := by
  simpa using foldl_pdSet_eq (fun _ => ([] : List Pos)) islands [] (by simp) hnd

theorem visitedInit_eq {islands : List Island} (hnd : (islands.map Island.pos).Nodup) :
    islands.foldl (fun d i => pdSet d i.pos false) [] =
      islands.map (fun i => (i.pos, false)) := by
  simpa using foldl_pdSet_eq (fun _ => false) islands [] (by simp) hnd

theorem pdGet_map_pos {islands : List Island} {β : Type} {g : Island → β}
    (hnd : (islands.map Island.pos).Nodup) {i : Island} (hi : i ∈ islands) :
    pdGet (islands.map (fun j => (j.pos, g j))) i.pos = some (g i) := by
  apply pdGet_of_mem_nodup
  · rw [keys_map_pos]
    exact hnd
  · exact List.mem_map.mpr ⟨i, hi, rfl⟩

theorem bridgeAdj_endpoints {sol : List Bridge} {islands : List Island}
    (hend : ∀ b ∈ sol, b.pos1 ∈ islands.map Island.pos ∧ b.pos2 ∈ islands.map Island.pos)
    {x q : Pos} (h : bridgeAdj sol x q) :
    x ∈ islands.map Island.pos ∧ q ∈ islands.map Island.pos := by
  obtain ⟨b, hb, hcase⟩ := h
  rcases hcase with ⟨h1, h2⟩ | ⟨h1, h2⟩
  · exact ⟨h1 ▸ (hend b hb).1, h2 ▸ (hend b hb).2⟩
  · exact ⟨h1 ▸ (hend b hb).2, h2 ▸ (hend b hb).1⟩

theorem degreeResiduals_spec {islands : List Island} {sol : List Bridge}
    (hnd : (islands.map Island.pos).Nodup)
    (hend : ∀ b ∈ sol, b.pos1 ∈ islands.map Island.pos ∧ b.pos2 ∈ islands.map Island.pos) :
    ∃ d2, degreeResiduals islands sol = some d2 ∧
      d2.map Prod.fst = islands.map Island.pos ∧
      (∀ i ∈ islands, pdGet d2 i.pos = some (i.degree - incidentSum sol i.pos)) := by
  have hdd := degreeDict_eq hnd
  have hkeys0 : (degreeDict islands).map Prod.fst = islands.map Island.pos := by
    rw [hdd, keys_map_pos]
  obtain ⟨d2, hd2, hk2, hg2⟩ := degreeResiduals_fold sol (degreeDict islands)
    (fun b hb => by rw [hkeys0]; exact hend b hb)
  refine ⟨d2, hd2, by rw [hk2, hkeys0], fun i hi => ?_⟩
  rw [hg2 i.pos, hdd, pdGet_map_pos hnd hi]
  rfl

theorem neighboursDict_spec {islands : List Island} {sol : List Bridge}
    (hnd : (islands.map Island.pos).Nodup)
    (hend : ∀ b ∈ sol, b.pos1 ∈ islands.map Island.pos ∧ b.pos2 ∈ islands.map Island.pos) :
    ∃ nbD, neighboursDict islands sol = some nbD ∧
      nbD.map Prod.fst = islands.map Island.pos ∧
      (∀ i ∈ islands, pdGet nbD i.pos = some (nbList sol i.pos)) := by
  have hinit := nbInit_eq hnd
  have hkeys0 : (islands.foldl (fun d i => pdSet d i.pos ([] : List Pos)) []).map Prod.fst =
      islands.map Island.pos := by
    rw [hinit, keys_map_pos]
  obtain ⟨d2, hd2, hk2, hg2⟩ := neighbours_fold sol _
    (fun b hb => by rw [hkeys0]; exact hend b hb)
  refine ⟨d2, hd2, by rw [hk2, hkeys0], fun i hi => ?_⟩
  rw [hg2 i.pos, hinit, pdGet_map_pos hnd hi]
  rfl

theorem residual_any_iff {islands : List Island} {sol : List Bridge} {d2 : PyDict Pos Int}
    (hnd : (islands.map Island.pos).Nodup)
    (hkeys : d2.map Prod.fst = islands.map Island.pos)
    (hget : ∀ i ∈ islands, pdGet d2 i.pos = some (i.degree - incidentSum sol i.pos)) :
    ((pdValues d2).any (fun v => v ≠ 0) = true ↔
      ∃ i ∈ islands, i.degree ≠ incidentSum sol i.pos) := by
  rw [List.any_eq_true]
  constructor
  · rintro ⟨v, hv, hvne⟩
    obtain ⟨⟨k, v0⟩, hkv, rfl⟩ := List.mem_map.mp hv
    have hk : k ∈ islands.map Island.pos := by
      rw [← hkeys]
      exact List.mem_map.mpr ⟨(k, v0), hkv, rfl⟩
    obtain ⟨i, hi, rfl⟩ := List.mem_map.mp hk
    have h1 : pdGet d2 i.pos = some v0 :=
      pdGet_of_mem_nodup (by rw [hkeys]; exact hnd) hkv
    rw [hget i hi] at h1
    refine ⟨i, hi, fun hc => ?_⟩
    have : v0 = 0 := by
      have := h1.symm
      simp at this
      omega
    simp [this] at hvne
  · rintro ⟨i, hi, hne⟩
    refine ⟨i.degree - incidentSum sol i.pos,
      List.mem_map.mpr ⟨_, pdGet_mem (hget i hi), rfl⟩, by simp [sub_eq_zero, hne]⟩

theorem nbAdj_iff {islands : List Island} {sol : List Bridge} {nbD : PyDict Pos (List Pos)}
    (hkeys : nbD.map Prod.fst = islands.map Island.pos)
    (hget : ∀ i ∈ islands, pdGet nbD i.pos = some (nbList sol i.pos)) :
    ∀ x y, NbAdj nbD x y ↔ (x ∈ islands.map Island.pos ∧ bridgeAdj sol x y) := by
  intro x y
  constructor
  · intro h
    unfold NbAdj adjOf at h
    cases hx : pdGet nbD x with
    | none => rw [hx] at h; simp at h
    | some ns =>
        have hxk : x ∈ islands.map Island.pos := by
          rw [← hkeys]
          exact pdGet_isSome_iff.mp (by rw [hx]; rfl)
        obtain ⟨i, hi, rfl⟩ := List.mem_map.mp hxk
        have hgi := hget i hi
        rw [hx] at hgi
        cases hgi
        rw [hx] at h
        exact ⟨hxk, mem_nbList.mp (by simpa using h)⟩
  · rintro ⟨hxk, hadj⟩
    obtain ⟨i, hi, rfl⟩ := List.mem_map.mp hxk
    unfold NbAdj adjOf
    rw [hget i hi]
    simpa using mem_nbList.mpr hadj

theorem nbReach_iff {islands : List Island} {sol : List Bridge} {nbD : PyDict Pos (List Pos)}
    (hkeys : nbD.map Prod.fst = islands.map Island.pos)
    (hget : ∀ i ∈ islands, pdGet nbD i.pos = some (nbList sol i.pos))
    (hend : ∀ b ∈ sol, b.pos1 ∈ islands.map Island.pos ∧ b.pos2 ∈ islands.map Island.pos) :
    ∀ x y, NbReach nbD x y ↔ Reachable sol x y := by
  intro x y
  constructor
  · intro h
    refine Relation.ReflTransGen.mono ?_ h
    intro a b hab
    exact ((nbAdj_iff hkeys hget a b).mp hab).2
  · intro h
    induction h with
    | refl => exact Relation.ReflTransGen.refl
    | tail hreach hstep ih =>
        refine Relation.ReflTransGen.tail ih ?_
        exact (nbAdj_iff hkeys hget _ _).mpr
          ⟨(bridgeAdj_endpoints hend hstep).1, hstep⟩

theorem visited_any_iff {islands : List Island} {out : PyDict Pos Bool} (P : Pos → Prop)
    (hnd : (islands.map Island.pos).Nodup)
    (hkeys : out.map Prod.fst = islands.map Island.pos)
    (hiff : ∀ i ∈ islands, (pdGet out i.pos = some true ↔ P i.pos)) :
    ((pdValues out).any (fun v => !v) = true ↔ ∃ i ∈ islands, ¬ P i.pos) := by
  rw [List.any_eq_true]
  constructor
  · rintro ⟨v, hv, hvtrue⟩
    obtain ⟨⟨k, v0⟩, hkv, rfl⟩ := List.mem_map.mp hv
    have hk : k ∈ islands.map Island.pos := by
      rw [← hkeys]
      exact List.mem_map.mpr ⟨(k, v0), hkv, rfl⟩
    obtain ⟨i, hi, rfl⟩ := List.mem_map.mp hk
    have h1 : pdGet out i.pos = some v0 :=
      pdGet_of_mem_nodup (by rw [hkeys]; exact hnd) hkv
    have hv0 : v0 = false := by
      cases v0
      · rfl
      · simp at hvtrue
    refine ⟨i, hi, fun hc => ?_⟩
    have h2 := (hiff i hi).mpr hc
    rw [h1, hv0] at h2
    simp at h2
  · rintro ⟨i, hi, hnp⟩
    have hk : i.pos ∈ out.map Prod.fst := by
      rw [hkeys]
      exact List.mem_map.mpr ⟨i, hi, rfl⟩
    obtain ⟨b, hb⟩ := Option.isSome_iff_exists.mp (pdGet_isSome_iff.mpr hk)
    have hbf : b = false := by
      cases b
      · rfl
      · exact absurd ((hiff i hi).mp hb) hnp
    subst hbf
    exact ⟨false, List.mem_map.mpr ⟨_, pdGet_mem hb, rfl⟩, rfl⟩

theorem check_solution_degree_fail {p : Puzzle} {sol : List Bridge}
    (hsol : p.solution = some sol)
    (hnd : (p.islands.map Island.pos).Nodup)
    (hend : ∀ b ∈ sol, b.pos1 ∈ p.islands.map Island.pos ∧ b.pos2 ∈ p.islands.map Island.pos)
    (hfail : ∃ i ∈ p.islands, i.degree ≠ incidentSum sol i.pos) :
    p.check_solution = some (false, degreeMsg) := by
  obtain ⟨d2, hd2, hkeys, hget⟩ := degreeResiduals_spec hnd hend
  have hany := (residual_any_iff hnd hkeys hget).mpr hfail
  unfold Puzzle.check_solution
  rw [hsol]
  simp only [Option.bind_eq_bind, Option.some_bind]
  rw [hd2]
  simp only [Option.bind_eq_bind, Option.some_bind]
  rw [hany]
  rfl

theorem check_solution_pass {p : Puzzle} {sol : List Bridge} {first : Island}
    (hsol : p.solution = some sol)
    (hnd : (p.islands.map Island.pos).Nodup)
    (hend : ∀ b ∈ sol, b.pos1 ∈ p.islands.map Island.pos ∧ b.pos2 ∈ p.islands.map Island.pos)
    (hdeg : ∀ i ∈ p.islands, i.degree = incidentSum sol i.pos)
    (hfirst : p.islands.head? = some first) :
    ((∃ i ∈ p.islands, ¬ Reachable sol first.pos i.pos) →
        p.check_solution = some (false, connectMsg)) ∧
    ((∀ i ∈ p.islands, Reachable sol first.pos i.pos) →
        p.check_solution = some (true, "Success")) := by
  obtain ⟨d2, hd2, hdkeys, hdget⟩ := degreeResiduals_spec hnd hend
  have hany : (pdValues d2).any (fun v => v ≠ 0) = false := by
    rw [← Bool.not_eq_true]
    intro hc
    obtain ⟨i, hi, hne⟩ := (residual_any_iff hnd hdkeys hdget).mp hc
    exact hne (hdeg i hi)
  obtain ⟨nbD, hnb, hnbkeys, hnbget⟩ := neighboursDict_spec hnd hend
  have hv0 := visitedInit_eq hnd
  have hfirstmem : first ∈ p.islands := List.mem_of_mem_head? (by rw [hfirst]; rfl)
  have hvkeys : (p.islands.foldl (fun d i => pdSet d i.pos false) []).map Prod.fst =
      p.islands.map Island.pos := by
    rw [hv0, keys_map_pos]
  have hnotrue : ∀ k, pdGet (p.islands.foldl (fun d i => pdSet d i.pos false) []) k =
      some true → False := by
    intro k hk
    have hm := pdGet_mem hk
    rw [hv0] at hm
    obtain ⟨i, hi, heq⟩ := List.mem_map.mp hm
    simp [Prod.ext_iff] at heq
  obtain ⟨out, hrun, hokeys, hmono, hqueue, hclosed, hsound⟩ := bfsLoop_spec nbD
    [first.pos]
    (p.islands.foldl (fun d i => pdSet d i.pos false) [])
    (by
      intro q hq
      simp at hq
      subst hq
      rw [hvkeys]
      exact List.mem_map.mpr ⟨first, hfirstmem, rfl⟩)
    (by
      intro k hk
      rw [hvkeys] at hk
      obtain ⟨i, hi, rfl⟩ := List.mem_map.mp hk
      refine ⟨nbList sol i.pos, hnbget i hi, ?_⟩
      intro q hq
      rw [hvkeys]
      exact (bridgeAdj_endpoints hend (mem_nbList.mp hq)).2)
    (fun k hk => absurd hk (fun h => hnotrue k h))
  have hokeys2 : out.map Prod.fst = p.islands.map Island.pos := hokeys.trans hvkeys
  have htrue_of_reach : ∀ z, NbReach nbD first.pos z → pdGet out z = some true := by
    intro z hz
    induction hz with
    | refl => exact hqueue first.pos (by simp)
    | tail h1 h2 ih => exact hclosed _ ih _ h2
  have hiff : ∀ i ∈ p.islands, (pdGet out i.pos = some true ↔
      Reachable sol first.pos i.pos) := by
    intro i hi
    constructor
    · intro h
      rcases hsound i.pos h with h0 | ⟨q, hq, hr⟩
      · exact absurd h0 (fun hx => hnotrue i.pos hx)
      · simp at hq
        subst hq
        exact (nbReach_iff hnbkeys hnbget hend _ _).mp hr
    · intro h
      exact htrue_of_reach i.pos ((nbReach_iff hnbkeys hnbget hend _ _).mpr h)
  have hanyv := visited_any_iff (fun k => Reachable sol first.pos k) hnd hokeys2 hiff
  have hcond : ¬ ((pdValues d2).any (fun v => v ≠ 0) = true) := by
    rw [hany]
    simp
  constructor
  · intro hex
    have hat : (pdValues out).any (fun v => !v) = true := hanyv.mpr hex
    unfold Puzzle.check_solution
    rw [hsol]
    simp only [Option.bind_eq_bind, Option.some_bind]
    rw [hd2]
    simp only [Option.bind_eq_bind, Option.some_bind]
    rw [if_neg hcond, hnb]
    simp only [Option.bind_eq_bind, Option.some_bind]
    rw [hfirst]
    simp only [Option.bind_eq_bind, Option.some_bind]
    rw [hrun]
    simp only [Option.bind_eq_bind, Option.some_bind]
    rw [hat]
    rfl
  · intro hall
    have haf : (pdValues out).any (fun v => !v) = false := by
      rw [← Bool.not_eq_true]
      intro hc
      obtain ⟨i, hi, hno⟩ := hanyv.mp hc
      exact hno (hall i hi)
    unfold Puzzle.check_solution
    rw [hsol]
    simp only [Option.bind_eq_bind, Option.some_bind]
    rw [hd2]
    simp only [Option.bind_eq_bind, Option.some_bind]
    rw [if_neg hcond, hnb]
    simp only [Option.bind_eq_bind, Option.some_bind]
    rw [hfirst]
    simp only [Option.bind_eq_bind, Option.some_bind]
    rw [hrun]
    simp only [Option.bind_eq_bind, Option.some_bind]
    rw [haf]
    rfl

/-- The spec's example puzzle islands: (0,0) degree 3, (0,3) degree 2, (3,0)
degree 1 on a 4 by 4 board. -/
def exampleIslands : List Island := [⟨0, 0, 3⟩, ⟨0, 3, 2⟩, ⟨3, 0, 1⟩]

/-- The spec's passing example solution: double to (0,3), single to (3,0). -/
def exampleSolutionGood : List Bridge :=
  [⟨⟨0, 0, 3⟩, ⟨0, 3, 2⟩, false⟩, ⟨⟨0, 0, 3⟩, ⟨3, 0, 1⟩, true⟩]

/-- The spec's failing example solution: both bridges double. -/
def exampleSolutionBad : List Bridge :=
  [⟨⟨0, 0, 3⟩, ⟨0, 3, 2⟩, false⟩, ⟨⟨0, 0, 3⟩, ⟨3, 0, 1⟩, false⟩]

/-- The passing example in answer form. -/
def examplePuzzleGood : Puzzle := ⟨4, 4, exampleIslands, some exampleSolutionGood⟩

/-- The failing example in answer form. -/
def examplePuzzleBad : Puzzle := ⟨4, 4, exampleIslands, some exampleSolutionBad⟩

/-- C2: for every puzzle with an attached solution whose bridge endpoints are
all islands of the puzzle, `check_solution` returns the failure result with
reason "Islands do not match bridges" if and only if some island's required
degree differs from the sum of its incident bridge weights; in particular the
degree verdict is decided independently of (and before) connectivity. -/
theorem degree_check_iff (p : Puzzle) (sol : List Bridge)
    (hsol : p.solution = some sol)
    (hnd : (p.islands.map Island.pos).Nodup)
    (hend : ∀ b ∈ sol, b.pos1 ∈ p.islands.map Island.pos ∧
      b.pos2 ∈ p.islands.map Island.pos) :
    (p.check_solution = some (false, degreeMsg) ↔
      ∃ i ∈ p.islands, i.degree ≠ incidentSum sol i.pos) := by
  constructor
  · intro h
    by_contra hc
    push_neg at hc
    obtain ⟨d2, hd2, hdkeys, hdget⟩ := degreeResiduals_spec hnd hend
    have hany : (pdValues d2).any (fun v => v ≠ 0) = false := by
      rw [← Bool.not_eq_true]
      intro hx
      obtain ⟨i, hi, hne⟩ := (residual_any_iff hnd hdkeys hdget).mp hx
      exact hne (hc i hi)
    have hcond : ¬ ((pdValues d2).any (fun v => v ≠ 0) = true) := by
      rw [hany]
      simp
    cases hfirst : p.islands.head? with
    | none =>
        obtain ⟨nbD, hnb, _, _⟩ := neighboursDict_spec hnd hend
        unfold Puzzle.check_solution at h
        rw [hsol] at h
        simp only [Option.bind_eq_bind, Option.some_bind] at h
        rw [hd2] at h
        simp only [Option.bind_eq_bind, Option.some_bind] at h
        rw [if_neg hcond, hnb] at h
        simp only [Option.bind_eq_bind, Option.some_bind] at h
        rw [hfirst] at h
        simp at h
    | some first =>
        have hp := check_solution_pass hsol hnd hend hc hfirst
        by_cases hex : ∃ i ∈ p.islands, ¬ Reachable sol first.pos i.pos
        · rw [hp.1 hex] at h
          exact absurd h (by decide)
        · push_neg at hex
          rw [hp.2 hex] at h
          exact absurd h (by decide)
  · exact fun hf => check_solution_degree_fail hsol hnd hend hf

theorem degree_check_iff_witness :
    examplePuzzleBad.check_solution = some (false, degreeMsg) :=
  (degree_check_iff examplePuzzleBad exampleSolutionBad rfl (by decide)
      (by decide)).mpr ⟨⟨3, 0, 1⟩, by decide, by decide⟩

/-- C3: for every puzzle with an attached solution whose bridge endpoints are
all islands of the puzzle and whose degree check passes, `check_solution`
fails with reason "Islands are not fully connected" exactly when some island
is unreachable from the first island of the puzzle in the undirected graph of
the solution's bridges, and passes with "Success" exactly when every island
is reachable. -/
theorem connectivity_check_iff (p : Puzzle) (sol : List Bridge) (first : Island)
    (hsol : p.solution = some sol)
    (hnd : (p.islands.map Island.pos).Nodup)
    (hend : ∀ b ∈ sol, b.pos1 ∈ p.islands.map Island.pos ∧
      b.pos2 ∈ p.islands.map Island.pos)
    (hfirst : p.islands.head? = some first)
    (hdeg : ∀ i ∈ p.islands, i.degree = incidentSum sol i.pos) :
    (p.check_solution = some (false, connectMsg) ↔
      ∃ i ∈ p.islands, ¬ Reachable sol first.pos i.pos) ∧
    (p.check_solution = some (true, "Success") ↔
      ∀ i ∈ p.islands, Reachable sol first.pos i.pos) := by
  have hp := check_solution_pass hsol hnd hend hdeg hfirst
  by_cases hex : ∃ i ∈ p.islands, ¬ Reachable sol first.pos i.pos
  · have h1 := hp.1 hex
    refine ⟨⟨fun _ => hex, fun _ => h1⟩, ?_, ?_⟩
    · intro h2
      rw [h1] at h2
      exact absurd h2 (by decide)
    · intro hall
      obtain ⟨i, hi, hn⟩ := hex
      exact absurd (hall i hi) hn
  · push_neg at hex
    have h2 := hp.2 hex
    refine ⟨⟨?_, ?_⟩, fun _ => hex, fun _ => h2⟩
    · intro h1
      rw [h2] at h1
      exact absurd h1 (by decide)
    · intro hx
      obtain ⟨i, hi, hn⟩ := hx
      exact absurd (hex i hi) hn

theorem connectivity_check_iff_witness :
    examplePuzzleGood.check_solution = some (true, "Success") := by
  have h := connectivity_check_iff examplePuzzleGood exampleSolutionGood ⟨0, 0, 3⟩
    rfl (by decide) (by decide) rfl (by decide)
  apply h.2.mpr
  intro i hi
  have hpos : i = (⟨0, 0, 3⟩ : Island) ∨ i = (⟨0, 3, 2⟩ : Island) ∨
      i = (⟨3, 0, 1⟩ : Island) := by
    simpa [examplePuzzleGood, exampleIslands] using hi
  rcases hpos with rfl | rfl | rfl
  · exact Relation.ReflTransGen.refl
  · exact Relation.ReflTransGen.single
      ⟨⟨⟨0, 0, 3⟩, ⟨0, 3, 2⟩, false⟩, by decide, Or.inl ⟨rfl, rfl⟩⟩
  · exact Relation.ReflTransGen.single
      ⟨⟨⟨0, 0, 3⟩, ⟨3, 0, 1⟩, true⟩, by decide, Or.inl ⟨rfl, rfl⟩⟩

/-- Cell kind of grid.py `Node.type`. -/
inductive NodeType
  | empty
  | island
  | bridge
deriving DecidableEq, Repr

/-- grid.py `Node`: cell kind and degree (sentinel -1 when not an island).
The stored x and y of the Python dataclass always equal the cell's grid
indices, so the embedding leaves them implicit. -/
structure Node where
  type : NodeType
  degree : Int
deriving DecidableEq, Repr

/-- Board of grid.py `Grid`: cells addressed by integer position. -/
structure Grid where
  width : Int
  height : Int
  cells : Pos → Node

/-- grid.py `Grid.__init__`: every cell empty with degree -1. -/
def Grid.init (width height : Int) : Grid :=
  ⟨width, height, fun _ => ⟨NodeType.empty, -1⟩⟩

/-- Write one cell of the grid. -/
def Grid.setCell (g : Grid) (p : Pos) (n : Node) : Grid :=
  ⟨g.width, g.height, fun q => if q = p then n else g.cells q⟩

/-- grid.py `Node.to_island`. -/
def Grid.toIsland (g : Grid) (p : Pos) (degree : Int) : Grid :=
  g.setCell p ⟨NodeType.island, degree⟩

/-- grid.py `Node.to_bridge`. -/
def Grid.toBridge (g : Grid) (p : Pos) : Grid :=
  g.setCell p ⟨NodeType.bridge, -1⟩

/-- grid.py `Grid.within_bounds`. -/
def Grid.within_bounds (g : Grid) (x y : Int) : Bool :=
  decide (0 ≤ x ∧ x < g.width ∧ 0 ≤ y ∧ y < g.height)

/-- puzzle.py `Puzzle.to_grid`: fresh grid with every island's cell marked
with its degree. -/
def Puzzle.to_grid (p : Puzzle) : Grid :=
  p.islands.foldl (fun g i => g.toIsland i.pos i.degree) (Grid.init p.width p.height)

/-- Default island used to read list entries at checked indices. -/
def dfltIsland : Island := ⟨0, 0, 0⟩

/-- Python `range(lo, hi)` over integers. -/
def intRange (lo hi : Int) : List Int :=
  (List.range (hi - lo).toNat).map (fun (n : Nat) => lo + (n : Int))

theorem mem_intRange {lo hi z : Int} : z ∈ intRange lo hi ↔ lo ≤ z ∧ z < hi := by
  unfold intRange
  rw [List.mem_map]
  constructor
  · rintro ⟨n, hn, rfl⟩
    rw [List.mem_range] at hn
    omega
  · rintro ⟨h1, h2⟩
    refine ⟨(z - lo).toNat, ?_, ?_⟩
    · rw [List.mem_range]
      omega
    · omega

/-- solver.py `get_possible_bridges`: index pairs of islands that admit a
bridge, the in-between test reading the supplied grid's cells. -/
def get_possible_bridges (p : Puzzle) (grid : Grid) : List (Nat × Nat) :=
  (List.range p.islands.length).bind (fun i =>
    (List.range p.islands.length).filterMap (fun j =>
      if i ≥ j then none
      else
        let islandI := p.islands.getD i dfltIsland
        let islandJ := p.islands.getD j dfltIsland
        if islandI.x = islandJ.x then
          (if (intRange (min islandI.y islandJ.y + 1) (max islandI.y islandJ.y)).all
              (fun y => (grid.cells (islandI.x, y)).type ≠ NodeType.island)
           then some (i, j) else none)
        else if islandI.y = islandJ.y then
          (if (intRange (min islandI.x islandJ.x + 1) (max islandI.x islandJ.x)).all
              (fun x => (grid.cells (x, islandI.y)).type ≠ NodeType.island)
           then some (i, j) else none)
        else none))

/-- Island `c` strictly between islands `a` and `b` on their shared line. -/
def betweenOnLine (a b c : Island) : Prop :=
  (a.x = b.x ∧ c.x = a.x ∧ min a.y b.y < c.y ∧ c.y < max a.y b.y) ∨
  (a.y = b.y ∧ c.y = a.y ∧ min a.x b.x < c.x ∧ c.x < max a.x b.x)

instance (a b c : Island) : Decidable (betweenOnLine a b c) := by
  unfold betweenOnLine
  infer_instance

theorem to_grid_island_aux (q : Pos) :
    ∀ (l : List Island) (init : Grid),
    (((l.foldl (fun g i => g.toIsland i.pos i.degree) init).cells q).type = NodeType.island ↔
      (∃ c ∈ l, c.pos = q) ∨ (init.cells q).type = NodeType.island) := by
  intro l
  induction l with
  | nil => simp
  | cons hd tl ih =>
      intro init
      rw [List.foldl_cons, ih]
      constructor
      · rintro (⟨c, hc, rfl⟩ | hinit)
        · exact Or.inl ⟨c, by simp [hc], rfl⟩
        · by_cases hq : q = hd.pos
          · exact Or.inl ⟨hd, by simp, hq.symm⟩
          · simp [Grid.toIsland, Grid.setCell, hq] at hinit
            exact Or.inr hinit
      · rintro (⟨c, hc, rfl⟩ | hinit)
        · rcases List.mem_cons.mp hc with rfl | htl
          · right
            simp [Grid.toIsland, Grid.setCell]
          · exact Or.inl ⟨c, htl, rfl⟩
        · by_cases hq : q = hd.pos
          · right
            simp [Grid.toIsland, Grid.setCell, hq]
          · right
            simpa [Grid.toIsland, Grid.setCell, hq] using hinit

theorem to_grid_island_iff (p : Puzzle) (q : Pos) :
    ((p.to_grid.cells q).type = NodeType.island ↔ ∃ c ∈ p.islands, c.pos = q) := by
  unfold Puzzle.to_grid
  rw [to_grid_island_aux]
  simp [Grid.init]

theorem pos_ne_of_index_ne {l : List Island} (hnd : (l.map Island.pos).Nodup)
    {i j : Nat} (hij : i ≠ j) (hi : i < l.length) (hj : j < l.length) :
    (l.getD i dfltIsland).pos ≠ (l.getD j dfltIsland).pos := by
  intro hc
  have hi2 : i < (l.map Island.pos).length := by simpa using hi
  have hj2 : j < (l.map Island.pos).length := by simpa using hj
  have h1 : (l.map Island.pos)[i] = (l.map Island.pos)[j] := by
    rw [List.getElem_map, List.getElem_map]
    rw [List.getD_eq_getElem l dfltIsland hi, List.getD_eq_getElem l dfltIsland hj] at hc
    exact hc
  exact hij ((@List.Nodup.getElem_inj_iff _ (l.map Island.pos) hnd i hi2 j hj2).mp h1)

theorem island_pos_eq_iff {a : Island} {q : Pos} : a.pos = q ↔ a.x = q.1 ∧ a.y = q.2 := by
  cases q
  simp [Island.pos]

/-- C4: over the grid rebuilt from the puzzle, `get_possible_bridges` returns
exactly the index pairs (i, j), i < j, of islands sharing an x or y
coordinate with no other island of the puzzle strictly between them on that
shared line; the in-between occupancy test depends only on island positions,
never on a bridge layout. -/
theorem possible_bridges_iff (p : Puzzle)
    (hnd : (p.islands.map Island.pos).Nodup)
    (hbounds : ∀ c ∈ p.islands, 0 ≤ c.x ∧ c.x < p.width ∧ 0 ≤ c.y ∧ c.y < p.height) :
    ∀ i j : Nat, ((i, j) ∈ get_possible_bridges p p.to_grid ↔
      (i < j ∧ j < p.islands.length ∧
        ((p.islands.getD i dfltIsland).x = (p.islands.getD j dfltIsland).x ∨
          (p.islands.getD i dfltIsland).y = (p.islands.getD j dfltIsland).y) ∧
        ∀ c ∈ p.islands,
          ¬ betweenOnLine (p.islands.getD i dfltIsland) (p.islands.getD j dfltIsland) c)) := by
  intro i j
  unfold get_possible_bridges
  simp only [List.mem_bind, List.mem_filterMap, List.mem_range]
  constructor
  · rintro ⟨i0, hi0, j0, hj0, hf⟩
    by_cases hij : i0 ≥ j0
    · simp [hij] at hf
    rw [if_neg hij] at hf
    push_neg at hij
    by_cases hx : (p.islands.getD i0 dfltIsland).x = (p.islands.getD j0 dfltIsland).x
    · rw [if_pos hx] at hf
      by_cases hall : (intRange
          (min (p.islands.getD i0 dfltIsland).y (p.islands.getD j0 dfltIsland).y + 1)
          (max (p.islands.getD i0 dfltIsland).y (p.islands.getD j0 dfltIsland).y)).all
          (fun y => (p.to_grid.cells ((p.islands.getD i0 dfltIsland).x, y)).type ≠
            NodeType.island)
      · rw [if_pos hall] at hf
        obtain ⟨rfl, rfl⟩ : i0 = i ∧ j0 = j := by
          have h1 := Option.some.inj hf
          exact ⟨congrArg Prod.fst h1, congrArg Prod.snd h1⟩
        refine ⟨hij, hj0, Or.inl hx, ?_⟩
        intro c hc hbet
        rcases hbet with ⟨h1, h2, h3, h4⟩ | ⟨h1, h2, h3, h4⟩
        · rw [List.all_eq_true] at hall
          have hcell := hall c.y (mem_intRange.mpr ⟨by omega, by omega⟩)
          rw [decide_eq_true_iff] at hcell
          apply hcell
          rw [to_grid_island_iff]
          exact ⟨c, hc, island_pos_eq_iff.mpr ⟨h2, rfl⟩⟩
        · exact pos_ne_of_index_ne hnd (Nat.ne_of_lt hij) (Nat.lt_trans hij hj0) hj0
            (island_pos_eq_iff.mpr ⟨hx, h1⟩)
      · rw [if_neg hall] at hf
        simp at hf
    · rw [if_neg hx] at hf
      by_cases hy : (p.islands.getD i0 dfltIsland).y = (p.islands.getD j0 dfltIsland).y
      · rw [if_pos hy] at hf
        by_cases hall : (intRange
            (min (p.islands.getD i0 dfltIsland).x (p.islands.getD j0 dfltIsland).x + 1)
            (max (p.islands.getD i0 dfltIsland).x (p.islands.getD j0 dfltIsland).x)).all
            (fun x => (p.to_grid.cells (x, (p.islands.getD i0 dfltIsland).y)).type ≠
              NodeType.island)
        · rw [if_pos hall] at hf
          obtain ⟨rfl, rfl⟩ : i0 = i ∧ j0 = j := by
            have h1 := Option.some.inj hf
            exact ⟨congrArg Prod.fst h1, congrArg Prod.snd h1⟩
          refine ⟨hij, hj0, Or.inr hy, ?_⟩
          intro c hc hbet
          rcases hbet with ⟨h1, h2, h3, h4⟩ | ⟨h1, h2, h3, h4⟩
          · exact hx h1
          · rw [List.all_eq_true] at hall
            have hcell := hall c.x (mem_intRange.mpr ⟨by omega, by omega⟩)
            rw [decide_eq_true_iff] at hcell
            apply hcell
            rw [to_grid_island_iff]
            exact ⟨c, hc, island_pos_eq_iff.mpr ⟨rfl, h2⟩⟩
        · rw [if_neg hall] at hf
          simp at hf
      · rw [if_neg hy] at hf
        simp at hf
  · rintro ⟨hij, hj, hshare, hbet⟩
    refine ⟨i, Nat.lt_trans hij hj, j, hj, ?_⟩
    rw [if_neg (by omega)]
    by_cases hx : (p.islands.getD i dfltIsland).x = (p.islands.getD j dfltIsland).x
    · rw [if_pos hx, if_pos ?_]
      rw [List.all_eq_true]
      intro y hy
      rw [decide_eq_true_iff]
      intro hisl
      rw [to_grid_island_iff] at hisl
      obtain ⟨c, hc, hcp⟩ := hisl
      rw [island_pos_eq_iff] at hcp
      rw [mem_intRange] at hy
      exact hbet c hc (Or.inl ⟨hx, by simpa using hcp.1, by omega, by omega⟩)
    · have hy : (p.islands.getD i dfltIsland).y = (p.islands.getD j dfltIsland).y := by
        rcases hshare with h | h
        · exact absurd h hx
        · exact h
      rw [if_neg hx, if_pos hy, if_pos ?_]
      rw [List.all_eq_true]
      intro x hxm
      rw [decide_eq_true_iff]
      intro hisl
      rw [to_grid_island_iff] at hisl
      obtain ⟨c, hc, hcp⟩ := hisl
      rw [island_pos_eq_iff] at hcp
      rw [mem_intRange] at hxm
      exact hbet c hc (Or.inr ⟨hy, by simpa using hcp.2, by omega, by omega⟩)

/-- The example puzzle in question form (no solution attached). -/
def examplePuzzleQ : Puzzle := ⟨4, 4, exampleIslands, none⟩

theorem possible_bridges_iff_witness :
    (0, 1) ∈ get_possible_bridges examplePuzzleQ examplePuzzleQ.to_grid :=
  (possible_bridges_iff examplePuzzleQ (by decide) (by decide) 0 1).mpr (by decide)

/-- solver.py `get_crossing_bridges`. -/
def get_crossing_bridges (p : Puzzle) (potential_bridges : List (Nat × Nat)) :
    List ((Nat × Nat) × (Nat × Nat)) :=
  (List.range potential_bridges.length).bind (fun index1 =>
    (List.range potential_bridges.length).filterMap (fun index2 =>
      if index1 ≥ index2 then none
      else
        let c1 := potential_bridges.getD index1 (0, 0)
        let c2 := potential_bridges.getD index2 (0, 0)
        let i1 := p.islands.getD c1.1 dfltIsland
        let j1 := p.islands.getD c1.2 dfltIsland
        let i2 := p.islands.getD c2.1 dfltIsland
        let j2 := p.islands.getD c2.2 dfltIsland
        if (decide (i1.y = j1.y)) = (decide (i2.y = j2.y)) then none
        else
          let horizontal := if i1.y = j1.y then (i1, j1) else (i2, j2)
          let vertical := if i1.y = j1.y then (i2, j2) else (i1, j1)
          if min vertical.1.y vertical.2.y < horizontal.1.y ∧
              horizontal.1.y < max vertical.1.y vertical.2.y ∧
              min horizontal.1.x horizontal.2.x < vertical.1.x ∧
              vertical.1.x < max horizontal.1.x horizontal.2.x
          then some (c1, c2) else none))

/-- Proper crossing of a horizontal candidate `ch` and a vertical candidate
`cv`, read as index pairs into the puzzle's islands: the horizontal
candidate's fixed y lies strictly between the vertical candidate's y
endpoints and the vertical candidate's fixed x lies strictly between the
horizontal candidate's x endpoints. -/
def crossesSpec (p : Puzzle) (ch cv : Nat × Nat) : Prop :=
  (p.islands.getD ch.1 dfltIsland).y = (p.islands.getD ch.2 dfltIsland).y ∧
  (p.islands.getD cv.1 dfltIsland).x = (p.islands.getD cv.2 dfltIsland).x ∧
  min (p.islands.getD cv.1 dfltIsland).y (p.islands.getD cv.2 dfltIsland).y <
    (p.islands.getD ch.1 dfltIsland).y ∧
  (p.islands.getD ch.1 dfltIsland).y <
    max (p.islands.getD cv.1 dfltIsland).y (p.islands.getD cv.2 dfltIsland).y ∧
  min (p.islands.getD ch.1 dfltIsland).x (p.islands.getD ch.2 dfltIsland).x <
    (p.islands.getD cv.1 dfltIsland).x ∧
  (p.islands.getD cv.1 dfltIsland).x <
    max (p.islands.getD ch.1 dfltIsland).x (p.islands.getD ch.2 dfltIsland).x

instance (p : Puzzle) (ch cv : Nat × Nat) : Decidable (crossesSpec p ch cv) := by
  unfold crossesSpec
  infer_instance

theorem pb_getD_mem {l : List (Nat × Nat)} {n : Nat} (h : n < l.length) :
    l.getD n (0, 0) ∈ l := by
  rw [List.getD_eq_getElem l (0, 0) h]
  exact List.getElem_mem h

/-- Every candidate of `get_possible_bridges` is an ordered index pair of
islands sharing an axis; under distinct positions, it is horizontal exactly
when it is not vertical. -/
theorem pb_mem_axis (p : Puzzle)
    (hnd : (p.islands.map Island.pos).Nodup)
    (hbounds : ∀ c ∈ p.islands, 0 ≤ c.x ∧ c.x < p.width ∧ 0 ≤ c.y ∧ c.y < p.height)
    {c : Nat × Nat} (hc : c ∈ get_possible_bridges p p.to_grid) :
    c.1 < c.2 ∧ c.2 < p.islands.length ∧
    ((p.islands.getD c.1 dfltIsland).y = (p.islands.getD c.2 dfltIsland).y ↔
      ¬ (p.islands.getD c.1 dfltIsland).x = (p.islands.getD c.2 dfltIsland).x) := by
  have hm := (possible_bridges_iff p hnd hbounds c.1 c.2).mp hc
  obtain ⟨h12, hlen, hshare, _⟩ := hm
  refine ⟨h12, hlen, ?_⟩
  have hne := pos_ne_of_index_ne hnd (Nat.ne_of_lt h12) (Nat.lt_trans h12 hlen) hlen
  constructor
  · intro hy hx
    exact hne (island_pos_eq_iff.mpr ⟨hx, hy⟩)
  · intro hx
    rcases hshare with h | h
    · exact absurd h hx
    · exact h

/-- C5: over the candidate list derived from the puzzle,
`get_crossing_bridges` returns exactly the pairs of candidates, one
horizontal and one vertical, whose segments properly cross; candidates of
the same orientation are never returned. -/
theorem crossing_bridges_iff (p : Puzzle)
    (hnd : (p.islands.map Island.pos).Nodup)
    (hbounds : ∀ c ∈ p.islands, 0 ≤ c.x ∧ c.x < p.width ∧ 0 ≤ c.y ∧ c.y < p.height) :
    ∀ c1 c2 : Nat × Nat,
      ((c1, c2) ∈ get_crossing_bridges p (get_possible_bridges p p.to_grid) ↔
        ∃ n1 n2 : Nat, n1 < n2 ∧ n2 < (get_possible_bridges p p.to_grid).length ∧
          (get_possible_bridges p p.to_grid).getD n1 (0, 0) = c1 ∧
          (get_possible_bridges p p.to_grid).getD n2 (0, 0) = c2 ∧
          (crossesSpec p c1 c2 ∨ crossesSpec p c2 c1)) := by
  intro c1 c2
  unfold get_crossing_bridges
  simp only [List.mem_bind, List.mem_filterMap, List.mem_range]
  constructor
  · rintro ⟨n1, hn1, n2, hn2, hf⟩
    by_cases hge : n1 ≥ n2
    · rw [if_pos hge] at hf
      exact absurd hf (by simp)
    rw [if_neg hge] at hf
    push_neg at hge
    have hm1 := pb_mem_axis p hnd hbounds (pb_getD_mem hn1)
    have hm2 := pb_mem_axis p hnd hbounds (pb_getD_mem hn2)
    set A := (get_possible_bridges p p.to_grid).getD n1 (0, 0) with hA
    set B := (get_possible_bridges p p.to_grid).getD n2 (0, 0) with hB
    set a1 := p.islands.getD A.1 dfltIsland with ha1
    set a2 := p.islands.getD A.2 dfltIsland with ha2
    set b1 := p.islands.getD B.1 dfltIsland with hb1
    set b2 := p.islands.getD B.2 dfltIsland with hb2
    by_cases h1H : a1.y = a2.y
    · by_cases h2H : b1.y = b2.y
      · rw [if_pos (by simp [h1H, h2H])] at hf
        exact absurd hf (by simp)
      · rw [if_neg (by simp [h1H, h2H])] at hf
        rw [if_pos h1H, if_pos h1H] at hf
        by_cases hcond : min b1.y b2.y < a1.y ∧ a1.y < max b1.y b2.y ∧
            min a1.x a2.x < b1.x ∧ b1.x < max a1.x a2.x
        · rw [if_pos hcond] at hf
          obtain ⟨rfl, rfl⟩ : A = c1 ∧ B = c2 := by
            have h1 := Option.some.inj hf
            exact ⟨congrArg Prod.fst h1, congrArg Prod.snd h1⟩
          have hbx : b1.x = b2.x := by
            by_contra hx
            exact h2H (hm2.2.2.mpr hx)
          exact ⟨n1, n2, hge, hn2, hA.symm, hB.symm,
            Or.inl ⟨h1H, hbx, hcond.1, hcond.2.1, hcond.2.2.1, hcond.2.2.2⟩⟩
        · rw [if_neg hcond] at hf
          exact absurd hf (by simp)
    · by_cases h2H : b1.y = b2.y
      · rw [if_neg (by simp [h1H, h2H])] at hf
        rw [if_neg h1H, if_neg h1H] at hf
        by_cases hcond : min a1.y a2.y < b1.y ∧ b1.y < max a1.y a2.y ∧
            min b1.x b2.x < a1.x ∧ a1.x < max b1.x b2.x
        · rw [if_pos hcond] at hf
          obtain ⟨rfl, rfl⟩ : A = c1 ∧ B = c2 := by
            have h1 := Option.some.inj hf
            exact ⟨congrArg Prod.fst h1, congrArg Prod.snd h1⟩
          have hax : a1.x = a2.x := by
            by_contra hx
            exact h1H (hm1.2.2.mpr hx)
          exact ⟨n1, n2, hge, hn2, hA.symm, hB.symm,
            Or.inr ⟨h2H, hax, hcond.1, hcond.2.1, hcond.2.2.1, hcond.2.2.2⟩⟩
        · rw [if_neg hcond] at hf
          exact absurd hf (by simp)
      · rw [if_pos (by simp [h1H, h2H])] at hf
        exact absurd hf (by simp)
  · rintro ⟨n1, n2, h12, hn2, hgd1, hgd2, hcross⟩
    refine ⟨n1, Nat.lt_trans h12 hn2, n2, hn2, ?_⟩
    rw [if_neg (by omega)]
    rw [hgd1, hgd2]
    have hm1 := pb_mem_axis p hnd hbounds (hgd1 ▸ pb_getD_mem (Nat.lt_trans h12 hn2))
    have hm2 := pb_mem_axis p hnd hbounds (hgd2 ▸ pb_getD_mem hn2)
    rcases hcross with ⟨hc1, hc2, hc3, hc4, hc5, hc6⟩ | ⟨hc1, hc2, hc3, hc4, hc5, hc6⟩
    · have h2H : ¬ (p.islands.getD c2.1 dfltIsland).y =
          (p.islands.getD c2.2 dfltIsland).y := by
        intro hy
        exact (hm2.2.2.mp hy) hc2
      rw [if_neg (by rw [decide_eq_true hc1, decide_eq_false h2H]; simp)]
      rw [if_pos hc1, if_pos hc1]
      rw [if_pos ⟨hc3, hc4, hc5, hc6⟩]
    · have h1H : ¬ (p.islands.getD c1.1 dfltIsland).y =
          (p.islands.getD c1.2 dfltIsland).y := by
        intro hy
        exact (hm1.2.2.mp hy) hc2
      rw [if_neg (by rw [decide_eq_false h1H, decide_eq_true hc1]; simp)]
      rw [if_neg h1H, if_neg h1H]
      rw [if_pos ⟨hc3, hc4, hc5, hc6⟩]

/-- Four islands giving one horizontal and one vertical crossing candidate. -/
def crossIslands : List Island := [⟨0, 1, 1⟩, ⟨2, 1, 1⟩, ⟨1, 0, 1⟩, ⟨1, 2, 1⟩]

/-- Question-form puzzle whose two candidates cross. -/
def crossPuzzle : Puzzle := ⟨3, 3, crossIslands, none⟩

theorem crossing_bridges_iff_witness :
    ((0, 1), (2, 3)) ∈ get_crossing_bridges crossPuzzle
      (get_possible_bridges crossPuzzle crossPuzzle.to_grid) :=
  (crossing_bridges_iff crossPuzzle (by decide) (by decide) (0, 1) (2, 3)).mpr
    ⟨0, 1, by decide, by decide, by decide, by decide, Or.inl (by decide)⟩

/-- Assignment of rational values to the model's decision variables: bridge
weight b, existence indicator y (keyed by the ordered candidate pair) and
directional flow f (keyed by both orientations of a candidate). -/
structure Assignment where
  bv : Nat × Nat → ℚ
  yv : Nat × Nat → ℚ
  fv : Nat × Nat → ℚ

/-- The constraint set built by solver.py `solve`: variable bounds and
integrality, island degree, bridge existence linkage, no-crossing, flow
conservation with island 0 as root, and flow capacity. -/
def ModelFeasible (p : Puzzle) (a : Assignment) : Prop :=
  (∀ c ∈ get_possible_bridges p p.to_grid,
    a.bv c = 0 ∨ a.bv c = 1 ∨ a.bv c = 2) ∧
  (∀ c ∈ get_possible_bridges p p.to_grid, a.yv c = 0 ∨ a.yv c = 1) ∧
  (∀ c ∈ get_possible_bridges p p.to_grid,
    0 ≤ a.fv c ∧ a.fv c ≤ (p.islands.length : ℚ) - 1 ∧
    0 ≤ a.fv (c.2, c.1) ∧ a.fv (c.2, c.1) ≤ (p.islands.length : ℚ) - 1) ∧
  (∀ i < p.islands.length,
    (((get_possible_bridges p p.to_grid).filter
        (fun uv => uv.1 = i ∨ uv.2 = i)).map a.bv).sum =
      ((p.islands.getD i dfltIsland).degree : ℚ)) ∧
  (∀ c ∈ get_possible_bridges p p.to_grid,
    a.yv c ≤ a.bv c ∧ a.bv c ≤ 2 * a.yv c) ∧
  (∀ pr ∈ get_crossing_bridges p (get_possible_bridges p p.to_grid),
    a.yv pr.1 + a.yv pr.2 ≤ 1) ∧
  (∀ i < p.islands.length,
    (((get_possible_bridges p p.to_grid).filterMap
        (fun uv => if uv.1 = i then some (a.fv (i, uv.2))
          else if uv.2 = i then some (a.fv (i, uv.1)) else none)).sum -
     ((get_possible_bridges p p.to_grid).filterMap
        (fun uv => if uv.1 = i then some (a.fv (uv.2, i))
          else if uv.2 = i then some (a.fv (uv.1, i)) else none)).sum =
      (if i = 0 then (p.islands.length : ℚ) - 1 else -1))) ∧
  (∀ c ∈ get_possible_bridges p p.to_grid,
    a.fv c + a.fv (c.2, c.1) ≤ ((p.islands.length : ℚ) - 1) * a.yv c)

instance (p : Puzzle) (a : Assignment) : Decidable (ModelFeasible p a) := by
  unfold ModelFeasible
  infer_instance

/-- C6: in every feasible assignment of the model, each directional flow
variable of a candidate (i, j) is bounded by (islandCount - 1) times the
candidate's existence indicator y. -/
theorem flow_capacity_directional (p : Puzzle) (a : Assignment)
    (hf : ModelFeasible p a) :
    ∀ c ∈ get_possible_bridges p p.to_grid,
      a.fv c ≤ ((p.islands.length : ℚ) - 1) * a.yv c ∧
      a.fv (c.2, c.1) ≤ ((p.islands.length : ℚ) - 1) * a.yv c := by
  intro c hc
  obtain ⟨_, _, hbnd, _, _, _, _, hcap⟩ := hf
  have h1 := (hbnd c hc).1
  have h2 := (hbnd c hc).2.2.1
  have h3 := hcap c hc
  constructor <;> linarith

/-- A feasible assignment for the example puzzle. -/
def exampleAssignment : Assignment :=
  ⟨fun c => if c = (0, 1) then 2 else if c = (0, 2) then 1 else 0,
   fun c => if c = (0, 1) then 1 else if c = (0, 2) then 1 else 0,
   fun c => if c = (0, 1) then 1 else if c = (0, 2) then 1 else 0⟩

theorem exampleAssignment_feasible : ModelFeasible examplePuzzleQ exampleAssignment := by
  unfold ModelFeasible
  rw [show get_possible_bridges examplePuzzleQ examplePuzzleQ.to_grid = [(0, 1), (0, 2)]
    from by decide]
  rw [show get_crossing_bridges examplePuzzleQ [(0, 1), (0, 2)] = [] from by decide]
  refine ⟨?_, ?_, ?_, ?_, ?_, ?_, ?_, ?_⟩
  · intro c hc
    rcases List.mem_cons.mp hc with rfl | hc
    · simp [exampleAssignment]
    rcases List.mem_cons.mp hc with rfl | hc
    · simp [exampleAssignment]
    · simp at hc
  · intro c hc
    rcases List.mem_cons.mp hc with rfl | hc
    · simp [exampleAssignment]
    rcases List.mem_cons.mp hc with rfl | hc
    · simp [exampleAssignment]
    · simp at hc
  · intro c hc
    rcases List.mem_cons.mp hc with rfl | hc
    · simp [exampleAssignment, examplePuzzleQ, exampleIslands]
      norm_num
    rcases List.mem_cons.mp hc with rfl | hc
    · simp [exampleAssignment, examplePuzzleQ, exampleIslands]
      norm_num
    · simp at hc
  · intro i hi
    have hi3 : i < 3 := by simpa [examplePuzzleQ, exampleIslands] using hi
    interval_cases i <;>
      simp [exampleAssignment, examplePuzzleQ, exampleIslands, dfltIsland,
        List.filter] <;> norm_num
  · intro c hc
    rcases List.mem_cons.mp hc with rfl | hc
    · simp [exampleAssignment]
    rcases List.mem_cons.mp hc with rfl | hc
    · simp [exampleAssignment]
    · simp at hc
  · intro pr hpr
    simp at hpr
  · intro i hi
    have hi3 : i < 3 := by simpa [examplePuzzleQ, exampleIslands] using hi
    interval_cases i <;>
      simp [exampleAssignment, examplePuzzleQ, exampleIslands, dfltIsland,
        List.filterMap] <;> norm_num
  · intro c hc
    rcases List.mem_cons.mp hc with rfl | hc
    · simp [exampleAssignment, examplePuzzleQ, exampleIslands]
      norm_num
    rcases List.mem_cons.mp hc with rfl | hc
    · simp [exampleAssignment, examplePuzzleQ, exampleIslands]
      norm_num
    · simp at hc

theorem flow_capacity_directional_witness :
    exampleAssignment.fv (0, 1) ≤ ((examplePuzzleQ.islands.length : ℚ) - 1) *
        exampleAssignment.yv (0, 1) ∧
    exampleAssignment.fv (1, 0) ≤ ((examplePuzzleQ.islands.length : ℚ) - 1) *
        exampleAssignment.yv (0, 1) :=
  flow_capacity_directional examplePuzzleQ exampleAssignment
    exampleAssignment_feasible (0, 1) (by decide)

/-- Status reported by the external solver (pulp LpStatus values used by the
code, plus the remaining pulp statuses). -/
inductive SolverStatus
  | Optimal
  | Feasible
  | Infeasible
  | Unbounded
  | NotSolved
  | Undefined
deriving DecidableEq, Repr

/-- Python round(): round half to even. -/
def pyRound (q : ℚ) : Int :=
  if q - ⌊q⌋ < 1/2 then ⌊q⌋
  else if 1/2 < q - ⌊q⌋ then ⌊q⌋ + 1
  else if ⌊q⌋ % 2 = 0 then ⌊q⌋ else ⌊q⌋ + 1

/-- Result extraction of solver.py `solve` (status test and read-back loop);
the external solver's reported status and per-variable values are
parameters, a read-back of `None` models an unassigned variable. -/
def extractSolution (p : Puzzle) (status : SolverStatus)
    (value : Nat × Nat → Option ℚ) : Option (List Bridge) :=
  if status = SolverStatus.Optimal ∨ status = SolverStatus.Feasible then
    some ((get_possible_bridges p p.to_grid).filterMap (fun c =>
      match value c with
      | none => none
      | some q =>
          if q > 1/2 then
            some ⟨p.islands.getD c.1 dfltIsland, p.islands.getD c.2 dfltIsland,
              decide (pyRound q = 1)⟩
          else none))
  else none

theorem length_filterMap_eq_countP {α β : Type} (f : α → Option β) (l : List α) :
    (l.filterMap f).length = l.countP (fun x => (f x).isSome) := by
  induction l with
  | nil => simp
  | cons hd tl ih =>
      cases hf : f hd with
      | none => simp [List.filterMap_cons, hf, List.countP_cons, ih]
      | some b => simp [List.filterMap_cons, hf, List.countP_cons, ih]

/-- C7: when the external solver's status is neither optimal nor feasible,
solve returns the explicit no-solution result; when it reports an
assignment, solve returns one Bridge per candidate whose solved b value
exceeds 0.5, connecting that candidate's islands, single exactly when the
rounded b value equals 1. -/
theorem extract_solution_spec (p : Puzzle) (status : SolverStatus)
    (value : Nat × Nat → Option ℚ) :
    (status ≠ SolverStatus.Optimal ∧ status ≠ SolverStatus.Feasible →
      extractSolution p status value = none) ∧
    (status = SolverStatus.Optimal ∨ status = SolverStatus.Feasible →
      ∃ sol, extractSolution p status value = some sol ∧
        sol.length = (get_possible_bridges p p.to_grid).countP
          (fun c => match value c with
            | none => false
            | some q => decide (q > 1/2)) ∧
        (∀ br, br ∈ sol ↔ ∃ c ∈ get_possible_bridges p p.to_grid, ∃ q,
          value c = some q ∧ q > 1/2 ∧
          br = ⟨p.islands.getD c.1 dfltIsland, p.islands.getD c.2 dfltIsland,
            decide (pyRound q = 1)⟩)) := by
  constructor
  · rintro ⟨h1, h2⟩
    unfold extractSolution
    rw [if_neg]
    rintro (h | h)
    · exact h1 h
    · exact h2 h
  · intro hst
    refine ⟨_, by unfold extractSolution; rw [if_pos hst], ?_, ?_⟩
    · rw [length_filterMap_eq_countP]
      apply List.countP_congr
      intro c _
      cases hv : value c with
      | none => simp [hv]
      | some q =>
          by_cases hq : q > 1/2
          · simp [hv, hq]
          · simp [hv, hq]
    · intro br
      rw [List.mem_filterMap]
      constructor
      · rintro ⟨c, hc, hf⟩
        cases hv : value c with
        | none => rw [hv] at hf; exact absurd hf (by simp)
        | some q =>
            rw [hv] at hf
            dsimp only at hf
            by_cases hq : q > 1/2
            · rw [if_pos hq] at hf
              exact ⟨c, hc, q, hv, hq, (Option.some.inj hf).symm⟩
            · rw [if_neg hq] at hf
              exact absurd hf (by simp)
      · rintro ⟨c, hc, q, hv, hq, rfl⟩
        refine ⟨c, hc, ?_⟩
        rw [hv]
        dsimp only
        rw [if_pos hq]

theorem extract_solution_spec_witness :
    extractSolution examplePuzzleQ SolverStatus.Infeasible (fun c => none) = none :=
  (extract_solution_spec examplePuzzleQ SolverStatus.Infeasible (fun c => none)).1
    ⟨by decide, by decide⟩

/-- direction.py `Direction`. -/
inductive Direction
  | up
  | down
  | left
  | right
deriving DecidableEq, Repr

/-- direction.py `Direction.get_vector`. -/
def Direction.get_vector : Direction → Int × Int
  | .up => (0, -1)
  | .down => (0, 1)
  | .left => (-1, 0)
  | .right => (1, 0)

/-- Oracle stream of raw random draws: an arbitrary underlying function of
draw indices together with the index of the next draw (index threading keeps
every consumption constant-depth). -/
structure RStream where
  base : Nat → Nat
  ofs : Nat

/-- The next draw of the stream. -/
def RStream.head (σ : RStream) : Nat := σ.base σ.ofs

/-- Stream after consuming one draw. -/
def rTail (σ : RStream) : RStream := ⟨σ.base, σ.ofs + 1⟩

/-- Python randint(lo, hi): the next draw mapped onto [lo, hi]; every value
of the range is an outcome of some draw. -/
def randInt (lo hi : Int) (σ : RStream) : Int × RStream :=
  (lo + Int.ofNat (σ.head % (hi - lo + 1).toNat), rTail σ)

/-- Python random.choice on a nonempty list: the next draw selects the
index; every element is an outcome of some draw. -/
def rChoice {α : Type} (l : List α) (dflt : α) (σ : RStream) : α × RStream :=
  (l.getD (σ.head % l.length) dflt, rTail σ)

/-- Python random() < p for a fixed tier probability strictly between 0 and
1: an arbitrary Boolean outcome read from the next draw (both outcomes occur
for a probability strictly between 0 and 1, so quantifying over streams
covers every possible comparison outcome). -/
def rBernoulli (σ : RStream) : Bool × RStream :=
  (σ.head % 2 == 0, rTail σ)

/-- grid.py `Grid.get_random_direction`: the candidate directions, in the
order UP, DOWN, LEFT, RIGHT, whose two adjacent cells in that direction are
available. -/
def Grid.availableDirections (g : Grid) (x y : Int) : List Direction :=
  (if 2 ≤ y ∧ (g.cells (x, y - 1)).type = NodeType.empty ∧
      (g.cells (x, y - 2)).type = NodeType.empty then [Direction.up] else []) ++
  (if y < g.height - 2 ∧ (g.cells (x, y + 1)).type = NodeType.empty ∧
      (g.cells (x, y + 2)).type = NodeType.empty then [Direction.down] else []) ++
  (if 2 ≤ x ∧ (g.cells (x - 1, y)).type = NodeType.empty ∧
      (g.cells (x - 2, y)).type = NodeType.empty then [Direction.left] else []) ++
  (if x < g.width - 2 ∧ (g.cells (x + 1, y)).type = NodeType.empty ∧
      (g.cells (x + 2, y)).type = NodeType.empty then [Direction.right] else [])

/-- grid.py `Grid.get_random_direction`. -/
def Grid.get_random_direction (g : Grid) (x y : Int) (σ : RStream) :
    Option Direction × RStream :=
  let avail := g.availableDirections x y
  if avail.length = 0 then (none, σ)
  else
    let c := rChoice avail Direction.up σ
    (some c.1, c.2)

/-- grid.py `Grid.get_random_bridge_thickness`; the tier's single-bridge
probability is strictly between 0 and 1 in all tiers, so the comparison
outcome is an arbitrary Boolean from the stream. -/
def Grid.get_random_bridge_thickness (g : Grid) (x y : Int) (max_degree : Int)
    (single_bridge_odds : ℚ) (σ : RStream) : Int × RStream :=
  if 2 ≤ max_degree - (g.cells (x, y)).degree then
    let c := rBernoulli σ
    (if c.1 then 1 else 2, c.2)
  else (1, σ)

/-- Steps before the probe position of the while-walk of
`get_random_bridge_length` leaves the board in the walk's direction. -/
def walkMeasure (g : Grid) (d : Direction) (cx cy : Int) : Nat :=
  match d with
  | .up => (cy + 1).toNat
  | .down => (g.height - cy).toNat
  | .left => (cx + 1).toNat
  | .right => (g.width - cx).toNat

/-- The while loop of grid.py `Grid.get_random_bridge_length` with explicit
structural fuel: walk from the probe position while in bounds and empty,
counting the runnable length. -/
def Grid.maxLengthAuxF (g : Grid) (d : Direction) : Nat → Int → Int → Nat → Nat
  | 0, _, _, acc => acc
  | fuel + 1, cx, cy, acc =>
      if g.within_bounds cx cy = true then
        if (g.cells (cx, cy)).type = NodeType.empty then
          g.maxLengthAuxF d fuel (cx + d.get_vector.1) (cy + d.get_vector.2) (acc + 1)
        else acc
      else acc

/-- The walk with fuel equal to `walkMeasure`, which is exact: each step of
the walk moves one cell in its direction, so after `walkMeasure` steps the
probe is out of bounds and the Python loop would stop anyway
(`walkMeasure_zero_out_of_bounds`); the fuel therefore never truncates. -/
def Grid.maxLengthAux (g : Grid) (d : Direction) (cx cy : Int) (acc : Nat) : Nat :=
  g.maxLengthAuxF d (walkMeasure g d cx cy) cx cy acc

theorem walkMeasure_zero_out_of_bounds (g : Grid) (d : Direction) (cx cy : Int)
    (h : walkMeasure g d cx cy = 0) : g.within_bounds cx cy = false := by
  cases d <;> simp [walkMeasure] at h <;> simp [Grid.within_bounds] <;> omega

/-- grid.py `Grid.get_random_bridge_length`. -/
def Grid.get_random_bridge_length (g : Grid) (x y : Int) (d : Direction)
    (shorter_bridges : Bool) (σ : RStream) : Int × RStream :=
  let v := d.get_vector
  let max_length : Int := (g.maxLengthAux d (x + v.1 * 3) (y + v.2 * 3) 1 : Nat)
  if shorter_bridges then
    let c1 := randInt 1 max_length σ
    let c2 := randInt 1 max_length c1.2
    (min c1.1 c2.1, c2.2)
  else randInt 1 max_length σ

/-- grid.py `Grid.add_bridge`: mark the `length` cells after (x, y) in the
given direction as bridge-occupied. -/
def Grid.add_bridge (g : Grid) (x y : Int) (length : Int) (d : Direction) : Grid :=
  (List.range length.toNat).foldl
    (fun g2 (i : Nat) => g2.toBridge (x + d.get_vector.1 * ((i : Int) + 1),
      y + d.get_vector.2 * ((i : Int) + 1))) g

/-- grid.py `Grid.to_puzzle`: scan x ascending then y ascending, collecting
island cells. -/
def Grid.to_puzzle (g : Grid) : Puzzle :=
  ⟨g.width, g.height,
    (intRange 0 g.width).bind (fun x =>
      (intRange 0 g.height).filterMap (fun y =>
        if (g.cells (x, y)).type = NodeType.island then
          some ⟨x, y, (g.cells (x, y)).degree⟩
        else none)),
    none⟩

theorem maxLengthAuxF_spec (g : Grid) (d : Direction) :
    ∀ (fuel : Nat) (cx cy : Int) (acc : Nat),
    acc ≤ g.maxLengthAuxF d fuel cx cy acc ∧
    ∀ t : Nat, t < g.maxLengthAuxF d fuel cx cy acc - acc →
      g.within_bounds (cx + d.get_vector.1 * t) (cy + d.get_vector.2 * t) = true ∧
      (g.cells (cx + d.get_vector.1 * t, cy + d.get_vector.2 * t)).type =
        NodeType.empty := by
  intro fuel
  induction fuel with
  | zero =>
      intro cx cy acc
      simp [Grid.maxLengthAuxF]
  | succ n ih =>
      intro cx cy acc
      by_cases hwb : g.within_bounds cx cy = true
      · by_cases hem : (g.cells (cx, cy)).type = NodeType.empty
        · have heq : g.maxLengthAuxF d (n + 1) cx cy acc =
              g.maxLengthAuxF d n (cx + d.get_vector.1) (cy + d.get_vector.2) (acc + 1) := by
            simp [Grid.maxLengthAuxF, hwb, hem]
          rw [heq]
          obtain ⟨ih1, ih2⟩ := ih (cx + d.get_vector.1) (cy + d.get_vector.2) (acc + 1)
          refine ⟨by omega, ?_⟩
          intro t ht
          cases t with
          | zero => simpa using ⟨hwb, hem⟩
          | succ k =>
              have hk := ih2 k (by omega)
              have e1 : cx + d.get_vector.1 * ((k + 1 : Nat) : Int) =
                  cx + d.get_vector.1 + d.get_vector.1 * (k : Int) := by
                push_cast
                ring
              have e2 : cy + d.get_vector.2 * ((k + 1 : Nat) : Int) =
                  cy + d.get_vector.2 + d.get_vector.2 * (k : Int) := by
                push_cast
                ring
              rw [e1, e2]
              exact hk
        · refine ⟨?_, ?_⟩
          · simp [Grid.maxLengthAuxF, hwb, hem]
          · intro t ht
            simp [Grid.maxLengthAuxF, hwb, hem] at ht
      · refine ⟨?_, ?_⟩
        · simp [Grid.maxLengthAuxF, hwb]
        · intro t ht
          simp [Grid.maxLengthAuxF, hwb] at ht

theorem getD_mem_of_lt {α : Type} {l : List α} {n : Nat} (d : α) (h : n < l.length) :
    l.getD n d ∈ l := by
  rw [List.getD_eq_getElem l d h]
  exact List.getElem_mem h

theorem avail_up {g : Grid} {x y : Int} :
    Direction.up ∈ g.availableDirections x y ↔
      (2 ≤ y ∧ (g.cells (x, y - 1)).type = NodeType.empty ∧
        (g.cells (x, y - 2)).type = NodeType.empty) := by
  unfold Grid.availableDirections
  split_ifs <;> simp_all

theorem avail_down {g : Grid} {x y : Int} :
    Direction.down ∈ g.availableDirections x y ↔
      (y < g.height - 2 ∧ (g.cells (x, y + 1)).type = NodeType.empty ∧
        (g.cells (x, y + 2)).type = NodeType.empty) := by
  unfold Grid.availableDirections
  split_ifs <;> simp_all

theorem avail_left {g : Grid} {x y : Int} :
    Direction.left ∈ g.availableDirections x y ↔
      (2 ≤ x ∧ (g.cells (x - 1, y)).type = NodeType.empty ∧
        (g.cells (x - 2, y)).type = NodeType.empty) := by
  unfold Grid.availableDirections
  split_ifs <;> simp_all

theorem avail_right {g : Grid} {x y : Int} :
    Direction.right ∈ g.availableDirections x y ↔
      (x < g.width - 2 ∧ (g.cells (x + 1, y)).type = NodeType.empty ∧
        (g.cells (x + 2, y)).type = NodeType.empty) := by
  unfold Grid.availableDirections
  split_ifs <;> simp_all

theorem mem_availableDirections_near {g : Grid} {x y : Int} {d : Direction}
    (hxy : g.within_bounds x y = true) (hd : d ∈ g.availableDirections x y) :
    ∀ t : Int, 1 ≤ t → t ≤ 2 →
      g.within_bounds (x + d.get_vector.1 * t) (y + d.get_vector.2 * t) = true ∧
      (g.cells (x + d.get_vector.1 * t, y + d.get_vector.2 * t)).type =
        NodeType.empty := by
  intro t h1 h2
  simp [Grid.within_bounds] at hxy
  have ht : t = 1 ∨ t = 2 := by omega
  cases d
  · rw [avail_up] at hd
    obtain ⟨hg, he1, he2⟩ := hd
    rcases ht with rfl | rfl <;>
      simp [Direction.get_vector, Grid.within_bounds] <;>
      refine ⟨by omega, ?_⟩
    · simpa using he1
    · simpa using he2
  · rw [avail_down] at hd
    obtain ⟨hg, he1, he2⟩ := hd
    rcases ht with rfl | rfl <;>
      simp [Direction.get_vector, Grid.within_bounds] <;>
      refine ⟨by omega, ?_⟩
    · simpa using he1
    · simpa using he2
  · rw [avail_left] at hd
    obtain ⟨hg, he1, he2⟩ := hd
    rcases ht with rfl | rfl <;>
      simp [Direction.get_vector, Grid.within_bounds] <;>
      refine ⟨by omega, ?_⟩
    · simpa using he1
    · simpa using he2
  · rw [avail_right] at hd
    obtain ⟨hg, he1, he2⟩ := hd
    rcases ht with rfl | rfl <;>
      simp [Direction.get_vector, Grid.within_bounds] <;>
      refine ⟨by omega, ?_⟩
    · simpa using he1
    · simpa using he2

theorem randInt_range {lo hi : Int} (h : lo ≤ hi) (σ : RStream) :
    lo ≤ (randInt lo hi σ).1 ∧ (randInt lo hi σ).1 ≤ hi := by
  unfold randInt
  dsimp
  have hpos : 0 < (hi - lo + 1).toNat := by omega
  have hlt := Nat.mod_lt σ.head hpos
  omega

/-- Any length `get_random_bridge_length` can return is between 1 and the
walked maximum length. -/
theorem bridge_length_range (g : Grid) (x y : Int) (d : Direction)
    (sb : Bool) (σ : RStream) :
    1 ≤ (g.get_random_bridge_length x y d sb σ).1 ∧
    (g.get_random_bridge_length x y d sb σ).1 ≤
      (g.maxLengthAux d (x + d.get_vector.1 * 3) (y + d.get_vector.2 * 3) 1 : Nat) := by
  have hm0 : 1 ≤ g.maxLengthAux d (x + d.get_vector.1 * 3) (y + d.get_vector.2 * 3) 1 := by
    have := (maxLengthAuxF_spec g d
      (walkMeasure g d (x + d.get_vector.1 * 3) (y + d.get_vector.2 * 3))
      (x + d.get_vector.1 * 3) (y + d.get_vector.2 * 3) 1).1
    unfold Grid.maxLengthAux
    omega
  have hm : (1 : Int) ≤
      ((g.maxLengthAux d (x + d.get_vector.1 * 3) (y + d.get_vector.2 * 3) 1 : Nat) : Int) := by
    exact_mod_cast hm0
  unfold Grid.get_random_bridge_length
  by_cases hsb : sb = true
  · rw [hsb]
    dsimp
    have h1 := randInt_range hm σ
    have h2 := randInt_range hm (randInt 1 ((g.maxLengthAux d (x + d.get_vector.1 * 3) (y + d.get_vector.2 * 3) 1 : Nat) : Int) σ).2
    constructor
    · exact le_min h1.1 h2.1
    · exact le_trans (min_le_left _ _) h1.2
  · have hsb2 : sb = false := by
      cases sb
      · rfl
      · exact absurd rfl hsb
    rw [hsb2]
    dsimp
    exact randInt_range hm σ

/-- All cells strictly after the start up to and including the end node of a
drawable bridge are in bounds and empty. -/
theorem bridge_path_clear {g : Grid} {x y : Int} {d : Direction}
    (hxy : g.within_bounds x y = true)
    (hd : d ∈ g.availableDirections x y)
    {L : Int} (hL1 : 1 ≤ L)
    (hL2 : L ≤ (g.maxLengthAux d (x + d.get_vector.1 * 3) (y + d.get_vector.2 * 3) 1 : Nat)) :
    ∀ t : Int, 1 ≤ t → t ≤ L + 1 →
      g.within_bounds (x + d.get_vector.1 * t) (y + d.get_vector.2 * t) = true ∧
      (g.cells (x + d.get_vector.1 * t, y + d.get_vector.2 * t)).type =
        NodeType.empty := by
  intro t h1 h2
  by_cases ht : t ≤ 2
  · exact mem_availableDirections_near hxy hd t h1 ht
  · push_neg at ht
    obtain ⟨hge, hver⟩ := maxLengthAuxF_spec g d
      (walkMeasure g d (x + d.get_vector.1 * 3) (y + d.get_vector.2 * 3))
      (x + d.get_vector.1 * 3) (y + d.get_vector.2 * 3) 1
    rw [show g.maxLengthAuxF d
        (walkMeasure g d (x + d.get_vector.1 * 3) (y + d.get_vector.2 * 3))
        (x + d.get_vector.1 * 3) (y + d.get_vector.2 * 3) 1 =
        g.maxLengthAux d (x + d.get_vector.1 * 3) (y + d.get_vector.2 * 3) 1 from rfl]
      at hge hver
    have hlt : (t - 3).toNat <
        g.maxLengthAux d (x + d.get_vector.1 * 3) (y + d.get_vector.2 * 3) 1 - 1 := by
      omega
    have hv := hver (t - 3).toNat hlt
    have e1 : x + d.get_vector.1 * 3 + d.get_vector.1 * (((t - 3).toNat : Nat) : Int) =
        x + d.get_vector.1 * t := by
      have hc : (((t - 3).toNat : Nat) : Int) = t - 3 := by omega
      rw [hc]
      ring
    have e2 : y + d.get_vector.2 * 3 + d.get_vector.2 * (((t - 3).toNat : Nat) : Int) =
        y + d.get_vector.2 * t := by
      have hc : (((t - 3).toNat : Nat) : Int) = t - 3 := by omega
      rw [hc]
      ring
    rw [e1, e2] at hv
    exact hv

/-- C10: whenever `get_random_direction` yields a direction for an in-bounds
start cell, every length `get_random_bridge_length` can return in that
direction puts the end node start + direction x (length + 1) inside the
grid, and every cell strictly between start and end is inside the grid, so
the commit step's grid accesses (end-node read, island write and
`add_bridge` writes) never index outside the board. -/
theorem generator_bridge_in_bounds (g : Grid) (x y : Int) (d : Direction)
    (σ σ2 : RStream) (sb : Bool)
    (hxy : g.within_bounds x y = true)
    (hd : (g.get_random_direction x y σ).1 = some d) :
    ∀ L : Int, L = (g.get_random_bridge_length x y d sb σ2).1 →
      g.within_bounds (x + d.get_vector.1 * (L + 1))
        (y + d.get_vector.2 * (L + 1)) = true ∧
      ∀ t : Int, 1 ≤ t → t ≤ L →
        g.within_bounds (x + d.get_vector.1 * t) (y + d.get_vector.2 * t) = true := by
  intro L hL
  have hdm : d ∈ g.availableDirections x y := by
    unfold Grid.get_random_direction at hd
    by_cases hlen : (g.availableDirections x y).length = 0
    · rw [if_pos hlen] at hd
      simp at hd
    · rw [if_neg hlen] at hd
      dsimp [rChoice] at hd
      have := Option.some.inj hd
      rw [← this]
      exact getD_mem_of_lt Direction.up
        (Nat.mod_lt _ (Nat.pos_of_ne_zero hlen))
  have hrange := bridge_length_range g x y d sb σ2
  rw [← hL] at hrange
  refine ⟨(bridge_path_clear hxy hdm hrange.1 hrange.2 (L + 1) (by omega) (by omega)).1,
    fun t h1 h2 => (bridge_path_clear hxy hdm hrange.1 hrange.2 t h1 (by omega)).1⟩

theorem generator_bridge_in_bounds_witness :
    (Grid.init 4 4).within_bounds (0 + Direction.down.get_vector.1 * (1 + 1))
      (0 + Direction.down.get_vector.2 * (1 + 1)) = true ∧
    ∀ t : Int, 1 ≤ t → t ≤ 1 →
      (Grid.init 4 4).within_bounds (0 + Direction.down.get_vector.1 * t)
        (0 + Direction.down.get_vector.2 * t) = true :=
  generator_bridge_in_bounds (Grid.init 4 4) 0 0 Direction.down ⟨fun _ => 0, 0⟩
    ⟨fun _ => 0, 0⟩ false (by decide) (by decide) 1 (by decide)

/-- State of generator.py `generate_candidate`: the grid, the count of
islands added after the seed, the planted solution, the frontier of
expandable island positions, and the remaining random stream. -/
structure GenState where
  grid : Grid
  islandCount : Nat
  solution : List Bridge
  toExpand : List Pos
  σ : RStream

/-- The adjacent-neighbour test of `generate_candidate`: some neighbour of
the prospective end node is already an island. -/
def adjacentIslandFound (g : Grid) (ex ey : Int) : Bool :=
  [Direction.up, Direction.down, Direction.left, Direction.right].any (fun cd =>
    g.within_bounds (ex + cd.get_vector.1) (ey + cd.get_vector.2) &&
    decide ((g.cells (ex + cd.get_vector.1, ey + cd.get_vector.2)).type =
      NodeType.island))

/-- The commit step of a successful growth iteration: bump the start
island's degree, create the end island, mark the bridge cells, extend the
frontier and record the planted bridge. -/
def genCommit (s : GenState) (startPos : Pos) (dir : Direction)
    (thickness length : Int) (σ2 : RStream) : GenState :=
  let endX := startPos.1 + dir.get_vector.1 * (length + 1)
  let endY := startPos.2 + dir.get_vector.2 * (length + 1)
  let cStart := s.grid.cells startPos
  let g1 := s.grid.setCell startPos ⟨cStart.type, cStart.degree + thickness⟩
  let g2 := g1.toIsland (endX, endY) thickness
  let g3 := g2.add_bridge startPos.1 startPos.2 length dir
  { grid := g3,
    islandCount := s.islandCount + 1,
    solution := s.solution ++ [⟨⟨startPos.1, startPos.2, 0⟩, ⟨endX, endY, 0⟩,
      decide (thickness = 1)⟩],
    toExpand := s.toExpand ++ [(endX, endY)],
    σ := σ2 }

/-- One iteration of the growth loop of `generate_candidate` (the loop body
after the two break tests at its top). -/
def genIteration (max_degree : Int) (single_bridge_odds : ℚ)
    (shorter_bridges : Bool) (s : GenState) : GenState :=
  let c0 := rChoice s.toExpand (0, 0) s.σ
  let startPos := c0.1
  let c1 := s.grid.get_random_direction startPos.1 startPos.2 c0.2
  match c1.1 with
  | none => { s with toExpand := s.toExpand.erase startPos, σ := c1.2 }
  | some dir =>
      if max_degree ≤ (s.grid.cells startPos).degree then
        { s with toExpand := s.toExpand.erase startPos, σ := c1.2 }
      else
        let c2 := s.grid.get_random_bridge_thickness startPos.1 startPos.2
          max_degree single_bridge_odds c1.2
        let c3 := s.grid.get_random_bridge_length startPos.1 startPos.2 dir
          shorter_bridges c2.2
        if adjacentIslandFound s.grid
            (startPos.1 + dir.get_vector.1 * (c3.1 + 1))
            (startPos.2 + dir.get_vector.2 * (c3.1 + 1)) then
          { s with σ := c3.2 }
        else
          genCommit s startPos dir c2.1 c3.1 c3.2

/-- The for loop of `generate_candidate` over at most max_cycles iterations,
with its two top-of-body break tests. -/
def genLoop (max_degree : Int) (single_bridge_odds : ℚ) (shorter_bridges : Bool)
    (min_island_count : Int) : Nat → GenState → GenState
  | 0, s => s
  | n + 1, s =>
      if s.toExpand = [] then s
      else if min_island_count ≤ (s.islandCount : Int) then s
      else genLoop max_degree single_bridge_odds shorter_bridges min_island_count n
        (genIteration max_degree single_bridge_odds shorter_bridges s)

/-- generator.py `generate_candidate`: seed a random island, then grow. -/
def generate_candidate (width height max_degree : Int) (single_bridge_odds : ℚ)
    (shorter_bridges : Bool) (min_island_count : Int) (max_cycles : Nat)
    (σ : RStream) : GenState :=
  let c0 := randInt 0 (width - 1) σ
  let c1 := randInt 0 (height - 1) c0.2
  let grid1 := (Grid.init width height).toIsland (c0.1, c1.1) 0
  genLoop max_degree single_bridge_odds shorter_bridges min_island_count max_cycles
    ⟨grid1, 0, [], [(c0.1, c1.1)], c1.2⟩

/-- generator.py `is_candidate_full`: no fully empty outer row or column
(Python index -1 reads the last row or column). -/
def is_candidate_full (g : Grid) : Bool :=
  (!(intRange 0 g.width).all
    (fun i => decide ((g.cells (i, 0)).type = NodeType.empty))) &&
  (!(intRange 0 g.width).all
    (fun i => decide ((g.cells (i, g.height - 1)).type = NodeType.empty))) &&
  (!(intRange 0 g.height).all
    (fun i => decide ((g.cells (0, i)).type = NodeType.empty))) &&
  (!(intRange 0 g.height).all
    (fun i => decide ((g.cells (g.width - 1, i)).type = NodeType.empty)))

/-- generator.py `Difficulty`. -/
inductive Difficulty
  | easy
  | medium
  | hard
  | extreme
deriving DecidableEq, Repr

/-- One difficulty tier's settings. -/
structure TierSettings where
  max_degree : Int
  single_bridge_odds : ℚ
  max_island_density100 : Int
  shorter_bridges : Bool

/-- The per-difficulty settings table of generator.py `generate`. The
densities carry two decimal digits and are represented scaled by 100; at
this scale the source's arithmetic (one division whose floor is taken, and
repeated 0.01 decays) is exact integer arithmetic. -/
def tierSettings : Difficulty → TierSettings
  | .easy => ⟨8, 45/100, 550, false⟩
  | .medium => ⟨7, 50/100, 450, false⟩
  | .hard => ⟨6, 55/100, 350, false⟩
  | .extreme => ⟨5, 60/100, 250, true⟩

/-- The while-True retry loop of generator.py `generate`, with explicit fuel
standing for the loop's unboundedness: `none` models the source still
looping after `fuel` attempts. `floor(width * height / density)` is
`width * height * 100 / density100` at the 100-scaled representation. -/
def generateFuel (width height : Int) (dif : Difficulty) :
    Nat → Int → RStream → Option (Grid × Puzzle)
  | 0, _, _ => none
  | n + 1, density100, σ =>
      let st := tierSettings dif
      let min_island_count := max 4 (width * height * 100 / density100)
      let estimated_max_cycles := (min_island_count * 10).toNat
      let s := generate_candidate width height st.max_degree st.single_bridge_odds
        st.shorter_bridges min_island_count estimated_max_cycles σ
      if (s.islandCount : Int) < min_island_count then
        generateFuel width height dif n (density100 + 1) s.σ
      else if is_candidate_full s.grid then
        some (s.grid, s.grid.to_puzzle.with_solution s.solution)
      else generateFuel width height dif n density100 s.σ

/-- generator.py `generate`, starting from the tier's initial density. -/
def generate (width height : Int) (dif : Difficulty) (fuel : Nat) (σ : RStream) :
    Option (Grid × Puzzle) :=
  generateFuel width height dif fuel (tierSettings dif).max_island_density100 σ

/-- Positions of the board scanned x ascending then y ascending, the order of
`Grid.to_puzzle`. -/
def allPositions (w h : Int) : List Pos :=
  (intRange 0 w).bind (fun x => (intRange 0 h).map (fun y => ((x, y) : Pos)))

theorem mem_allPositions {w h : Int} {q : Pos} :
    q ∈ allPositions w h ↔ 0 ≤ q.1 ∧ q.1 < w ∧ 0 ≤ q.2 ∧ q.2 < h := by
  obtain ⟨qx, qy⟩ := q
  simp only [allPositions, List.mem_bind, List.mem_map, mem_intRange, Prod.mk.injEq]
  constructor
  · rintro ⟨x, hx, y, hy, rfl, rfl⟩
    exact ⟨hx.1, hx.2, hy.1, hy.2⟩
  · rintro ⟨h1, h2, h3, h4⟩
    exact ⟨qx, ⟨h1, h2⟩, qy, ⟨h3, h4⟩, rfl, rfl⟩

theorem intRange_nodup (lo hi : Int) : (intRange lo hi).Nodup := by
  unfold intRange
  refine List.Nodup.map ?_ (List.nodup_range _)
  intro a b hab
  dsimp at hab
  omega

theorem allPositions_nodup (w h : Int) : (allPositions w h).Nodup := by
  unfold allPositions
  rw [List.nodup_bind]
  refine ⟨?_, ?_⟩
  · intro x hx
    refine List.Nodup.map ?_ (intRange_nodup 0 h)
    intro a b hab
    exact congrArg Prod.snd hab
  · refine List.Pairwise.imp ?_ (intRange_nodup 0 w)
    intro a b hab
    intro q hqa hqb
    obtain ⟨ya, hya, rfl⟩ := List.mem_map.mp hqa
    obtain ⟨yb, hyb, heq⟩ := List.mem_map.mp hqb
    exact hab (congrArg Prod.fst heq).symm

theorem filter_bind_aux {α β : Type} (l : List α) (f : α → List β) (p : β → Bool) :
    (l.bind f).filter p = l.bind (fun a => (f a).filter p) := by
  induction l with
  | nil => rfl
  | cons a t ih => simp only [List.cons_bind, List.filter_append, ih]

theorem map_pos_filterMap (g : Grid) (x : Int) (ys : List Int) :
    (ys.filterMap (fun y => if (g.cells (x, y)).type = NodeType.island then
        some (⟨x, y, (g.cells (x, y)).degree⟩ : Island) else none)).map Island.pos =
      (ys.map (fun y => ((x, y) : Pos))).filter
        (fun q => decide ((g.cells q).type = NodeType.island)) := by
  induction ys with
  | nil => rfl
  | cons y t ih =>
      rw [List.filterMap_cons, List.map_cons, List.filter_cons]
      by_cases hy : (g.cells (x, y)).type = NodeType.island
      · rw [if_pos hy, if_pos (by simpa using hy)]
        dsimp only
        rw [List.map_cons, ih]
        rfl
      · rw [if_neg hy, if_neg (by simpa using hy)]
        dsimp only
        exact ih

/-- The island positions of `to_puzzle` are the board scan filtered to island
cells. -/
theorem to_puzzle_map_pos (g : Grid) :
    g.to_puzzle.islands.map Island.pos =
      (allPositions g.width g.height).filter
        (fun q => decide ((g.cells q).type = NodeType.island)) := by
  unfold Grid.to_puzzle allPositions
  rw [List.map_bind, filter_bind_aux]
  congr 1
  funext x
  exact map_pos_filterMap g x (intRange 0 g.height)

theorem to_puzzle_pos_nodup (g : Grid) : (g.to_puzzle.islands.map Island.pos).Nodup := by
  rw [to_puzzle_map_pos]
  exact (allPositions_nodup g.width g.height).filter _

/-- Membership of a position among the island positions of `to_puzzle`. -/
theorem to_puzzle_pos_mem (g : Grid) (q : Pos) :
    q ∈ g.to_puzzle.islands.map Island.pos ↔
      (0 ≤ q.1 ∧ q.1 < g.width ∧ 0 ≤ q.2 ∧ q.2 < g.height) ∧
      (g.cells q).type = NodeType.island := by
  rw [to_puzzle_map_pos, List.mem_filter, mem_allPositions]
  simp

/-- Every island of `to_puzzle` sits on an island cell and carries its
degree. -/
theorem to_puzzle_mem_elim {g : Grid} {i : Island} (h : i ∈ g.to_puzzle.islands) :
    (g.cells i.pos).type = NodeType.island ∧ i.degree = (g.cells i.pos).degree := by
  unfold Grid.to_puzzle at h
  simp only [List.mem_bind, List.mem_filterMap] at h
  obtain ⟨x, hx, y, hy, hif⟩ := h
  by_cases hc : (g.cells (x, y)).type = NodeType.island
  · rw [if_pos hc] at hif
    have := Option.some.inj hif
    subst this
    exact ⟨hc, rfl⟩
  · rw [if_neg hc] at hif
    cases hif

theorem to_puzzle_length (g : Grid) :
    g.to_puzzle.islands.length =
      (allPositions g.width g.height).countP
        (fun q => decide ((g.cells q).type = NodeType.island)) := by
  have h := congrArg List.length (to_puzzle_map_pos g)
  rw [List.length_map] at h
  rw [h, List.countP_eq_length_filter]

/-- Flipping one list element from failing to passing a predicate raises the
count by one when everything else keeps its verdict. -/
theorem countP_update_one {α : Type} {l : List α} {p q : α → Bool} {a : α}
    (hnd : l.Nodup) (ha : a ∈ l) (hpa : p a = false) (hqa : q a = true)
    (hsame : ∀ b ∈ l, b ≠ a → q b = p b) :
    l.countP q = l.countP p + 1 := by
  induction l with
  | nil => cases ha
  | cons x t ih =>
      rw [List.countP_cons, List.countP_cons]
      rcases List.mem_cons.mp ha with hax | hat
      · subst hax
        have hnotin : a ∉ t := (List.nodup_cons.mp hnd).1
        have heq : t.countP q = t.countP p := by
          apply List.countP_congr
          intro b hb
          rw [hsame b (List.mem_cons_of_mem a hb) (fun hc => hnotin (hc ▸ hb))]
        rw [heq, hpa, hqa]
        simp
      · have hxa : x ≠ a := by
          rintro rfl
          exact (List.nodup_cons.mp hnd).1 hat
        rw [hsame x (List.mem_cons_self x t) hxa,
          ih (List.nodup_cons.mp hnd).2 hat
            (fun b hb hba => hsame b (List.mem_cons_of_mem x hb) hba)]
        omega

theorem countP_all_false {α : Type} {l : List α} {p : α → Bool}
    (h : ∀ b ∈ l, p b = false) : l.countP p = 0 := by
  induction l with
  | nil => rfl
  | cons x t ih =>
      rw [List.countP_cons, h x (List.mem_cons_self x t),
        ih (fun b hb => h b (List.mem_cons_of_mem x hb))]
      simp

theorem bridgeAdj_symm {sol : List Bridge} {p q : Pos} (h : bridgeAdj sol p q) :
    bridgeAdj sol q p := by
  obtain ⟨b, hb, hc⟩ := h
  exact ⟨b, hb, hc.symm.imp And.symm And.symm⟩

theorem Reachable_symm {sol : List Bridge} {p q : Pos} (h : Reachable sol p q) :
    Reachable sol q p :=
  Relation.ReflTransGen.symmetric (fun _ _ hadj => bridgeAdj_symm hadj) h

theorem Reachable_append {sol : List Bridge} {b : Bridge} {p q : Pos}
    (h : Reachable sol p q) : Reachable (sol ++ [b]) p q := by
  refine Relation.ReflTransGen.mono ?_ h
  rintro u v ⟨c, hc, hor⟩
  exact ⟨c, List.mem_append_left _ hc, hor⟩

theorem incidentSum_append (sol : List Bridge) (b : Bridge) (k : Pos) :
    incidentSum (sol ++ [b]) k = incidentSum sol k + bridgeContrib b k := by
  simp [incidentSum]

theorem incidentSum_eq_zero {sol : List Bridge} {k : Pos}
    (h : ∀ b ∈ sol, b.pos1 ≠ k ∧ b.pos2 ≠ k) : incidentSum sol k = 0 := by
  unfold incidentSum
  apply List.sum_eq_zero
  intro z hz
  obtain ⟨b, hb, rfl⟩ := List.mem_map.mp hz
  unfold bridgeContrib
  rw [if_neg (h b hb).1, if_neg (h b hb).2]
  rfl

theorem within_bounds_iff {g : Grid} {x y : Int} :
    g.within_bounds x y = true ↔ 0 ≤ x ∧ x < g.width ∧ 0 ≤ y ∧ y < g.height := by
  unfold Grid.within_bounds
  simp

theorem add_bridge_foldl_cells (x y : Int) (d : Direction) :
    ∀ (l : List Nat) (g : Grid) (q : Pos),
    ((l.foldl (fun g2 (i : Nat) => g2.toBridge (x + d.get_vector.1 * ((i : Int) + 1),
        y + d.get_vector.2 * ((i : Int) + 1))) g).cells q) =
      if ∃ i ∈ l, q = (x + d.get_vector.1 * ((i : Int) + 1),
          y + d.get_vector.2 * ((i : Int) + 1)) then
        (⟨NodeType.bridge, -1⟩ : Node) else g.cells q := by
  intro l
  induction l with
  | nil =>
      intro g q
      simp
  | cons a t ih =>
      intro g q
      rw [List.foldl_cons, ih]
      by_cases hq : ∃ i ∈ t, q = (x + d.get_vector.1 * ((i : Int) + 1),
          y + d.get_vector.2 * ((i : Int) + 1))
      · rw [if_pos hq, if_pos ?_]
        obtain ⟨i, hi, hqi⟩ := hq
        exact ⟨i, List.mem_cons_of_mem a hi, hqi⟩
      · rw [if_neg hq]
        unfold Grid.toBridge Grid.setCell
        dsimp only
        by_cases hqa : q = (x + d.get_vector.1 * ((a : Int) + 1),
            y + d.get_vector.2 * ((a : Int) + 1))
        · rw [if_pos hqa, if_pos ⟨a, List.mem_cons_self a t, hqa⟩]
        · rw [if_neg hqa, if_neg ?_]
          rintro ⟨i, hit, hqi⟩
          rcases List.mem_cons.mp hit with rfl | hmem
          · exact hqa hqi
          · exact hq ⟨i, hmem, hqi⟩

/-- The cells of `add_bridge`: the `length` cells after the start in the
bridge's direction become bridge cells, everything else is untouched. -/
theorem add_bridge_cells (g : Grid) (x y length : Int) (d : Direction) (q : Pos) :
    (g.add_bridge x y length d).cells q =
      if ∃ t ∈ intRange 1 (length + 1),
          q = (x + d.get_vector.1 * t, y + d.get_vector.2 * t)
      then (⟨NodeType.bridge, -1⟩ : Node) else g.cells q := by
  unfold Grid.add_bridge
  rw [add_bridge_foldl_cells x y d (List.range length.toNat) g q]
  by_cases h : ∃ t ∈ intRange 1 (length + 1),
      q = (x + d.get_vector.1 * t, y + d.get_vector.2 * t)
  · rw [if_pos h]
    obtain ⟨t, ht, hqt⟩ := h
    rw [mem_intRange] at ht
    rw [if_pos ?_]
    refine ⟨(t - 1).toNat, List.mem_range.mpr (by omega), ?_⟩
    rw [show (((t - 1).toNat : Nat) : Int) + 1 = t by omega]
    exact hqt
  · rw [if_neg h, if_neg ?_]
    rintro ⟨i, hi, hqi⟩
    rw [List.mem_range] at hi
    exact h ⟨(i : Int) + 1, mem_intRange.mpr ⟨by omega, by omega⟩, hqi⟩

theorem add_bridge_dims (g : Grid) (x y length : Int) (d : Direction) :
    (g.add_bridge x y length d).width = g.width ∧
    (g.add_bridge x y length d).height = g.height := by
  unfold Grid.add_bridge
  generalize List.range length.toNat = l
  induction l generalizing g with
  | nil => exact ⟨rfl, rfl⟩
  | cons a t ih => exact ih _

theorem thickness_vals (g : Grid) (x y max_degree : Int) (sbo : ℚ) (σ : RStream) :
    (g.get_random_bridge_thickness x y max_degree sbo σ).1 = 1 ∨
    (g.get_random_bridge_thickness x y max_degree sbo σ).1 = 2 := by
  unfold Grid.get_random_bridge_thickness
  by_cases h : 2 ≤ max_degree - (g.cells (x, y)).degree
  · rw [if_pos h]
    dsimp only
    cases hb : (rBernoulli σ).1
    · right
      rw [if_neg (by simp [hb])]
    · left
      rw [if_pos (by simp [hb])]
  · rw [if_neg h]
    left
    rfl

theorem get_random_direction_mem {g : Grid} {x y : Int} {σ : RStream} {d : Direction}
    (hd : (g.get_random_direction x y σ).1 = some d) :
    d ∈ g.availableDirections x y := by
  unfold Grid.get_random_direction at hd
  by_cases hlen : (g.availableDirections x y).length = 0
  · rw [if_pos hlen] at hd
    simp at hd
  · rw [if_neg hlen] at hd
    dsimp [rChoice] at hd
    have := Option.some.inj hd
    rw [← this]
    exact getD_mem_of_lt Direction.up (Nat.mod_lt _ (Nat.pos_of_ne_zero hlen))

/-- Loop invariant of `generate_candidate`, tying the grid to the planted
solution: islands stay on the board, each island cell's recorded degree is
the incident planted weight, planted bridges join island cells, the frontier
holds island cells, every island is connected to the seed, and the board
holds exactly one island more than the running count. -/
structure GenInv (w h : Int) (root : Pos) (s : GenState) : Prop where
  dimW : s.grid.width = w
  dimH : s.grid.height = h
  rootIsl : (s.grid.cells root).type = NodeType.island
  inB : ∀ q : Pos, (s.grid.cells q).type = NodeType.island →
    0 ≤ q.1 ∧ q.1 < w ∧ 0 ≤ q.2 ∧ q.2 < h
  deg : ∀ q : Pos, (s.grid.cells q).type = NodeType.island →
    (s.grid.cells q).degree = incidentSum s.solution q
  ends : ∀ b ∈ s.solution, (s.grid.cells b.pos1).type = NodeType.island ∧
    (s.grid.cells b.pos2).type = NodeType.island
  frontier : ∀ q ∈ s.toExpand, (s.grid.cells q).type = NodeType.island
  reach : ∀ q : Pos, (s.grid.cells q).type = NodeType.island →
    Reachable s.solution root q
  count : s.grid.to_puzzle.islands.length = s.islandCount + 1

theorem GenInv_erase {w h : Int} {root : Pos} {s : GenState}
    (hinv : GenInv w h root s) (ps : Pos) (σ2 : RStream) :
    GenInv w h root ⟨s.grid, s.islandCount, s.solution, s.toExpand.erase ps, σ2⟩ :=
  ⟨hinv.dimW, hinv.dimH, hinv.rootIsl, hinv.inB, hinv.deg, hinv.ends,
    fun q hq => hinv.frontier q (List.mem_of_mem_erase hq), hinv.reach, hinv.count⟩

theorem GenInv_sigma {w h : Int} {root : Pos} {s : GenState}
    (hinv : GenInv w h root s) (σ2 : RStream) :
    GenInv w h root ⟨s.grid, s.islandCount, s.solution, s.toExpand, σ2⟩ :=
  ⟨hinv.dimW, hinv.dimH, hinv.rootIsl, hinv.inB, hinv.deg, hinv.ends,
    hinv.frontier, hinv.reach, hinv.count⟩

/-- The commit step preserves the generator invariant: the new end island is
created on an empty in-bounds cell, the planted bridge joins it to the start
island, and all bookkeeping moves in lockstep. -/
theorem genCommit_inv {w h : Int} {root : Pos} {s : GenState}
    (hinv : GenInv w h root s) {startPos : Pos}
    (hstart : (s.grid.cells startPos).type = NodeType.island)
    {dir : Direction} (hdir : dir ∈ s.grid.availableDirections startPos.1 startPos.2)
    {thickness : Int} (hth : thickness = 1 ∨ thickness = 2)
    {length : Int} (hL1 : 1 ≤ length)
    (hL2 : length ≤ (s.grid.maxLengthAux dir
      (startPos.1 + dir.get_vector.1 * 3) (startPos.2 + dir.get_vector.2 * 3) 1 : Nat))
    (σ2 : RStream) :
    GenInv w h root (genCommit s startPos dir thickness length σ2) := by
  obtain ⟨sx, sy⟩ := startPos
  have hsb : s.grid.within_bounds sx sy = true := by
    rw [within_bounds_iff, hinv.dimW, hinv.dimH]
    exact hinv.inB (sx, sy) hstart
  have hclear := bridge_path_clear hsb hdir hL1 hL2
  have hpinj : ∀ t u : Int, (sx + dir.get_vector.1 * t, sy + dir.get_vector.2 * t) =
      (sx + dir.get_vector.1 * u, sy + dir.get_vector.2 * u) → t = u := by
    intro t u hEq
    cases dir <;> simp [Direction.get_vector, Prod.ext_iff] at hEq <;> omega
  have hSE : ((sx, sy) : Pos) ≠ (sx + dir.get_vector.1 * (length + 1),
      sy + dir.get_vector.2 * (length + 1)) := by
    intro hc
    have h0 : ((sx, sy) : Pos) = (sx + dir.get_vector.1 * 0, sy + dir.get_vector.2 * 0) := by
      rw [show sx + dir.get_vector.1 * 0 = sx by ring,
        show sy + dir.get_vector.2 * 0 = sy by ring]
    have := hpinj 0 (length + 1) (h0.symm.trans hc)
    omega
  have hEempty : (s.grid.cells (sx + dir.get_vector.1 * (length + 1),
      sy + dir.get_vector.2 * (length + 1))).type = NodeType.empty :=
    (hclear (length + 1) (by omega) (by omega)).2
  have hEb : s.grid.within_bounds (sx + dir.get_vector.1 * (length + 1))
      (sy + dir.get_vector.2 * (length + 1)) = true :=
    (hclear (length + 1) (by omega) (by omega)).1
  have hcells : ∀ q : Pos, (genCommit s (sx, sy) dir thickness length σ2).grid.cells q =
      if ∃ t ∈ intRange 1 (length + 1), q = (sx + dir.get_vector.1 * t,
          sy + dir.get_vector.2 * t) then (⟨NodeType.bridge, -1⟩ : Node)
      else if q = (sx + dir.get_vector.1 * (length + 1),
          sy + dir.get_vector.2 * (length + 1)) then ⟨NodeType.island, thickness⟩
      else if q = (sx, sy) then ⟨(s.grid.cells (sx, sy)).type,
        (s.grid.cells (sx, sy)).degree + thickness⟩
      else s.grid.cells q := by
    intro q
    rw [show (genCommit s (sx, sy) dir thickness length σ2).grid =
      ((s.grid.setCell (sx, sy) ⟨(s.grid.cells (sx, sy)).type,
          (s.grid.cells (sx, sy)).degree + thickness⟩).toIsland
        (sx + dir.get_vector.1 * (length + 1), sy + dir.get_vector.2 * (length + 1))
        thickness).add_bridge sx sy length dir from rfl]
    rw [add_bridge_cells]
    rfl
  have hnotpathE : ¬ ∃ t ∈ intRange 1 (length + 1),
      ((sx + dir.get_vector.1 * (length + 1), sy + dir.get_vector.2 * (length + 1)) : Pos) =
      (sx + dir.get_vector.1 * t, sy + dir.get_vector.2 * t) := by
    rintro ⟨t, ht, hq⟩
    rw [mem_intRange] at ht
    have := hpinj (length + 1) t hq
    omega
  have hEisl : ((genCommit s (sx, sy) dir thickness length σ2).grid.cells
      (sx + dir.get_vector.1 * (length + 1),
        sy + dir.get_vector.2 * (length + 1))).type = NodeType.island := by
    rw [hcells _, if_neg hnotpathE, if_pos rfl]
  have hpreserve : ∀ q : Pos, (s.grid.cells q).type = NodeType.island →
      ((genCommit s (sx, sy) dir thickness length σ2).grid.cells q).type =
        NodeType.island := by
    intro q hq
    rw [hcells q]
    by_cases h1 : ∃ t ∈ intRange 1 (length + 1),
        q = (sx + dir.get_vector.1 * t, sy + dir.get_vector.2 * t)
    · exfalso
      obtain ⟨t, ht, hqt⟩ := h1
      rw [mem_intRange] at ht
      rw [hqt, (hclear t ht.1 (by omega)).2] at hq
      exact absurd hq (by decide)
    · rw [if_neg h1]
      by_cases h2 : q = (sx + dir.get_vector.1 * (length + 1),
          sy + dir.get_vector.2 * (length + 1))
      · rw [if_pos h2]
      · rw [if_neg h2]
        by_cases h3 : q = (sx, sy)
        · rw [if_pos h3]
          rw [h3] at hq
          exact hq
        · rw [if_neg h3]
          exact hq
  have hisl_inv : ∀ q : Pos,
      ((genCommit s (sx, sy) dir thickness length σ2).grid.cells q).type =
        NodeType.island →
      q = (sx + dir.get_vector.1 * (length + 1), sy + dir.get_vector.2 * (length + 1)) ∨
      (s.grid.cells q).type = NodeType.island := by
    intro q hq
    rw [hcells q] at hq
    by_cases h1 : ∃ t ∈ intRange 1 (length + 1),
        q = (sx + dir.get_vector.1 * t, sy + dir.get_vector.2 * t)
    · rw [if_pos h1] at hq
      exact absurd hq (by decide)
    · rw [if_neg h1] at hq
      by_cases h2 : q = (sx + dir.get_vector.1 * (length + 1),
          sy + dir.get_vector.2 * (length + 1))
      · exact Or.inl h2
      · rw [if_neg h2] at hq
        by_cases h3 : q = (sx, sy)
        · rw [h3]
          exact Or.inr hstart
        · rw [if_neg h3] at hq
          exact Or.inr hq
  have hW : (genCommit s (sx, sy) dir thickness length σ2).grid.width = s.grid.width := by
    rw [show (genCommit s (sx, sy) dir thickness length σ2).grid =
      ((s.grid.setCell (sx, sy) ⟨(s.grid.cells (sx, sy)).type,
          (s.grid.cells (sx, sy)).degree + thickness⟩).toIsland
        (sx + dir.get_vector.1 * (length + 1), sy + dir.get_vector.2 * (length + 1))
        thickness).add_bridge sx sy length dir from rfl]
    exact (add_bridge_dims _ _ _ _ _).1
  have hH : (genCommit s (sx, sy) dir thickness length σ2).grid.height = s.grid.height := by
    rw [show (genCommit s (sx, sy) dir thickness length σ2).grid =
      ((s.grid.setCell (sx, sy) ⟨(s.grid.cells (sx, sy)).type,
          (s.grid.cells (sx, sy)).degree + thickness⟩).toIsland
        (sx + dir.get_vector.1 * (length + 1), sy + dir.get_vector.2 * (length + 1))
        thickness).add_bridge sx sy length dir from rfl]
    exact (add_bridge_dims _ _ _ _ _).2
  have hwt : bridgeWeight ⟨⟨sx, sy, 0⟩, ⟨sx + dir.get_vector.1 * (length + 1),
      sy + dir.get_vector.2 * (length + 1), 0⟩, decide (thickness = 1)⟩ = thickness := by
    rcases hth with rfl | rfl <;> rfl
  have hsol2 : (genCommit s (sx, sy) dir thickness length σ2).solution =
      s.solution ++ [⟨⟨sx, sy, 0⟩, ⟨sx + dir.get_vector.1 * (length + 1),
        sy + dir.get_vector.2 * (length + 1), 0⟩, decide (thickness = 1)⟩] := rfl
  have hEnoInc : incidentSum s.solution (sx + dir.get_vector.1 * (length + 1),
      sy + dir.get_vector.2 * (length + 1)) = 0 := by
    apply incidentSum_eq_zero
    intro b hb
    constructor
    · intro hc
      have := (hinv.ends b hb).1
      rw [hc, hEempty] at this
      exact absurd this (by decide)
    · intro hc
      have := (hinv.ends b hb).2
      rw [hc, hEempty] at this
      exact absurd this (by decide)
  refine ⟨hW.trans hinv.dimW, hH.trans hinv.dimH, hpreserve root hinv.rootIsl,
    ?_, ?_, ?_, ?_, ?_, ?_⟩
  · intro q hq
    rcases hisl_inv q hq with rfl | hold
    · rw [← hinv.dimW, ← hinv.dimH]
      have := within_bounds_iff.mp hEb
      exact this
    · exact hinv.inB q hold
  · intro q hq
    have hq2 := hq
    rw [hcells q] at hq2
    rw [hsol2, incidentSum_append, hcells q]
    by_cases h1 : ∃ t ∈ intRange 1 (length + 1),
        q = (sx + dir.get_vector.1 * t, sy + dir.get_vector.2 * t)
    · rw [if_pos h1] at hq2
      exact absurd hq2 (by decide)
    · rw [if_neg h1] at hq2 ⊢
      by_cases h2 : q = (sx + dir.get_vector.1 * (length + 1),
          sy + dir.get_vector.2 * (length + 1))
      · rw [if_pos h2]
        dsimp only
        rw [h2]
        simp only [bridgeContrib, Bridge.pos1, Bridge.pos2]
        rw [if_neg hSE, hwt, hEnoInc]
        simp
      · rw [if_neg h2] at hq2 ⊢
        by_cases h3 : q = (sx, sy)
        · rw [if_pos h3]
          dsimp only
          rw [h3]
          simp only [bridgeContrib, Bridge.pos1, Bridge.pos2]
          rw [if_neg (show ¬((sx + dir.get_vector.1 * (length + 1),
              sy + dir.get_vector.2 * (length + 1)) : Pos) = (sx, sy) from
            fun hc => hSE hc.symm), hwt, hinv.deg (sx, sy) hstart]
          simp
        · rw [if_neg h3] at hq2 ⊢
          simp only [bridgeContrib, Bridge.pos1, Bridge.pos2]
          rw [if_neg (fun hc => h3 hc.symm), if_neg (fun hc => h2 hc.symm),
            hinv.deg q hq2]
          simp
  · intro b hb
    rw [hsol2] at hb
    rcases List.mem_append.mp hb with hold | hnew
    · exact ⟨hpreserve _ (hinv.ends b hold).1, hpreserve _ (hinv.ends b hold).2⟩
    · rw [List.mem_singleton] at hnew
      subst hnew
      exact ⟨hpreserve _ hstart, hEisl⟩
  · intro q hq
    rw [show (genCommit s (sx, sy) dir thickness length σ2).toExpand =
      s.toExpand ++ [(sx + dir.get_vector.1 * (length + 1),
        sy + dir.get_vector.2 * (length + 1))] from rfl] at hq
    rcases List.mem_append.mp hq with hold | hnewq
    · exact hpreserve q (hinv.frontier q hold)
    · rw [List.mem_singleton] at hnewq
      subst hnewq
      exact hEisl
  · intro q hq
    rcases hisl_inv q hq with rfl | hold
    · rw [hsol2]
      refine Relation.ReflTransGen.tail (Reachable_append (hinv.reach (sx, sy) hstart)) ?_
      refine ⟨⟨⟨sx, sy, 0⟩, ⟨sx + dir.get_vector.1 * (length + 1),
        sy + dir.get_vector.2 * (length + 1), 0⟩, decide (thickness = 1)⟩,
        List.mem_append_right _ (List.mem_singleton_self _), Or.inl ⟨rfl, rfl⟩⟩
    · rw [hsol2]
      exact Reachable_append (hinv.reach q hold)
  · rw [show (genCommit s (sx, sy) dir thickness length σ2).islandCount =
      s.islandCount + 1 from rfl]
    rw [to_puzzle_length, hW, hH]
    have hmemE : ((sx + dir.get_vector.1 * (length + 1),
        sy + dir.get_vector.2 * (length + 1)) : Pos) ∈
        allPositions s.grid.width s.grid.height := by
      rw [mem_allPositions]
      rw [within_bounds_iff] at hEb
      exact hEb
    rw [@countP_update_one Pos (allPositions s.grid.width s.grid.height)
      (fun q => decide ((s.grid.cells q).type = NodeType.island))
      (fun q => decide (((genCommit s (sx, sy) dir thickness length
        σ2).grid.cells q).type = NodeType.island))
      ((sx + dir.get_vector.1 * (length + 1), sy + dir.get_vector.2 * (length + 1)) : Pos)
      (allPositions_nodup s.grid.width s.grid.height) hmemE
      (by simp [hEempty]) (by simp [hEisl]) ?_]
    · rw [← to_puzzle_length, hinv.count]
    · intro q hq hqE
      simp only [decide_eq_decide]
      constructor
      · intro hisl
        rcases hisl_inv q hisl with rfl | hold
        · exact absurd rfl hqE
        · exact hold
      · intro hold
        exact hpreserve q hold

/-- One loop iteration preserves the generator invariant whenever the
frontier is nonempty (as guaranteed by the loop's break test). -/
theorem genIteration_inv {w h : Int} {root : Pos} {md : Int} {sbo : ℚ} {sb : Bool}
    {s : GenState} (hne : s.toExpand ≠ []) (hinv : GenInv w h root s) :
    GenInv w h root (genIteration md sbo sb s) := by
  have hstartmem : (rChoice s.toExpand ((0, 0) : Pos) s.σ).1 ∈ s.toExpand := by
    unfold rChoice
    dsimp only
    exact getD_mem_of_lt _ (Nat.mod_lt _ (List.length_pos.mpr hne))
  have hstart := hinv.frontier _ hstartmem
  simp only [genIteration]
  rcases hd : (s.grid.get_random_direction (rChoice s.toExpand ((0, 0) : Pos) s.σ).1.1
      (rChoice s.toExpand ((0, 0) : Pos) s.σ).1.2 (rChoice s.toExpand ((0, 0) : Pos) s.σ).2).1
    with _ | dir
  · exact GenInv_erase hinv _ _
  · dsimp only
    by_cases hcap : md ≤ (s.grid.cells (rChoice s.toExpand ((0, 0) : Pos) s.σ).1).degree
    · rw [if_pos hcap]
      exact GenInv_erase hinv _ _
    · rw [if_neg hcap]
      by_cases hadj : adjacentIslandFound s.grid
          ((rChoice s.toExpand ((0, 0) : Pos) s.σ).1.1 + dir.get_vector.1 *
            ((s.grid.get_random_bridge_length (rChoice s.toExpand ((0, 0) : Pos) s.σ).1.1
              (rChoice s.toExpand ((0, 0) : Pos) s.σ).1.2 dir sb
              (s.grid.get_random_bridge_thickness (rChoice s.toExpand ((0, 0) : Pos) s.σ).1.1
                (rChoice s.toExpand ((0, 0) : Pos) s.σ).1.2 md sbo
                (s.grid.get_random_direction (rChoice s.toExpand ((0, 0) : Pos) s.σ).1.1
                  (rChoice s.toExpand ((0, 0) : Pos) s.σ).1.2
                  (rChoice s.toExpand ((0, 0) : Pos) s.σ).2).2).2).1 + 1))
          ((rChoice s.toExpand ((0, 0) : Pos) s.σ).1.2 + dir.get_vector.2 *
            ((s.grid.get_random_bridge_length (rChoice s.toExpand ((0, 0) : Pos) s.σ).1.1
              (rChoice s.toExpand ((0, 0) : Pos) s.σ).1.2 dir sb
              (s.grid.get_random_bridge_thickness (rChoice s.toExpand ((0, 0) : Pos) s.σ).1.1
                (rChoice s.toExpand ((0, 0) : Pos) s.σ).1.2 md sbo
                (s.grid.get_random_direction (rChoice s.toExpand ((0, 0) : Pos) s.σ).1.1
                  (rChoice s.toExpand ((0, 0) : Pos) s.σ).1.2
                  (rChoice s.toExpand ((0, 0) : Pos) s.σ).2).2).2).1 + 1)) = true
      · rw [if_pos hadj]
        exact GenInv_sigma hinv _
      · rw [if_neg hadj]
        refine genCommit_inv hinv hstart (get_random_direction_mem hd) ?_ ?_ ?_ _
        · exact thickness_vals s.grid _ _ md sbo _
        · exact (bridge_length_range s.grid _ _ dir sb _).1
        · exact (bridge_length_range s.grid _ _ dir sb _).2

/-- The growth loop preserves the generator invariant. -/
theorem genLoop_inv {w h : Int} {root : Pos} {md : Int} {sbo : ℚ} {sb : Bool}
    {minc : Int} : ∀ (n : Nat) {s : GenState}, GenInv w h root s →
    GenInv w h root (genLoop md sbo sb minc n s) := by
  intro n
  induction n with
  | zero =>
      intro s hs
      exact hs
  | succ n ih =>
      intro s hs
      rw [genLoop]
      by_cases hne : s.toExpand = []
      · rw [if_pos hne]
        exact hs
      · rw [if_neg hne]
        by_cases hcnt : minc ≤ (s.islandCount : Int)
        · rw [if_pos hcnt]
          exact hs
        · rw [if_neg hcnt]
          exact ih (genIteration_inv hne hs)

/-- `generate_candidate` establishes the invariant with the seed island as
root. -/
theorem generate_candidate_inv (width height max_degree : Int) (sbo : ℚ) (sb : Bool)
    (minc : Int) (cycles : Nat) (σ : RStream) (hw : 1 ≤ width) (hh : 1 ≤ height) :
    GenInv width height
      ((randInt 0 (width - 1) σ).1, (randInt 0 (height - 1) (randInt 0 (width - 1) σ).2).1)
      (generate_candidate width height max_degree sbo sb minc cycles σ) := by
  apply genLoop_inv
  have hcx := randInt_range (by omega : (0 : Int) ≤ width - 1) σ
  have hcy := randInt_range (by omega : (0 : Int) ≤ height - 1) (randInt 0 (width - 1) σ).2
  set cx := (randInt 0 (width - 1) σ).1 with hcxdef
  set cy := (randInt 0 (height - 1) (randInt 0 (width - 1) σ).2).1 with hcydef
  have hcells : ∀ q : Pos, ((Grid.init width height).toIsland (cx, cy) 0).cells q =
      if q = (cx, cy) then (⟨NodeType.island, 0⟩ : Node) else ⟨NodeType.empty, -1⟩ := by
    intro q
    rfl
  have hisl : ∀ q : Pos,
      (((Grid.init width height).toIsland (cx, cy) 0).cells q).type = NodeType.island →
      q = (cx, cy) := by
    intro q hq
    rw [hcells q] at hq
    by_cases hqc : q = (cx, cy)
    · exact hqc
    · rw [if_neg hqc] at hq
      exact absurd hq (by decide)
  refine ⟨rfl, rfl, ?_, ?_, ?_, ?_, ?_, ?_, ?_⟩
  · rw [hcells _, if_pos rfl]
  · intro q hq
    rw [hisl q hq]
    exact ⟨hcx.1, by omega, hcy.1, by omega⟩
  · intro q hq
    rw [hisl q hq, hcells _, if_pos rfl]
    rfl
  · intro b hb
    cases hb
  · intro q hq
    rw [List.mem_singleton] at hq
    rw [hq, hcells _, if_pos rfl]
  · intro q hq
    rw [hisl q hq]
    exact Relation.ReflTransGen.refl
  · rw [to_puzzle_length]
    rw [show ((Grid.init width height).toIsland (cx, cy) 0).width = width from rfl,
      show ((Grid.init width height).toIsland (cx, cy) 0).height = height from rfl]
    rw [@countP_update_one Pos (allPositions width height)
      (fun _ => false)
      (fun q => decide ((((Grid.init width height).toIsland (cx, cy) 0).cells q).type =
        NodeType.island))
      ((cx, cy) : Pos)
      (allPositions_nodup width height)
      (mem_allPositions.mpr ⟨hcx.1, by omega, hcy.1, by omega⟩)
      rfl
      (by dsimp only; rw [hcells _, if_pos rfl]; rfl)
      ?_]
    · rw [countP_all_false (fun b hb => rfl)]
    · intro q hq hqc
      dsimp only
      rw [hcells q, if_neg hqc]
      rfl

/-- Any state satisfying the generator invariant yields a puzzle that the
verifier accepts with its planted solution attached. -/
theorem candidate_check {w h : Int} {root : Pos} {s : GenState}
    (hinv : GenInv w h root s) :
    (s.grid.to_puzzle.with_solution s.solution).check_solution =
      some (true, "Success") := by
  have hposmem : ∀ q : Pos, (s.grid.cells q).type = NodeType.island →
      q ∈ s.grid.to_puzzle.islands.map Island.pos := by
    intro q hq
    rw [to_puzzle_pos_mem]
    refine ⟨?_, hq⟩
    rw [hinv.dimW, hinv.dimH]
    exact hinv.inB q hq
  have hrootmem := hposmem root hinv.rootIsl
  obtain ⟨first, rest, hfr⟩ : ∃ a t, s.grid.to_puzzle.islands = a :: t := by
    cases hlist : s.grid.to_puzzle.islands with
    | nil =>
        rw [hlist] at hrootmem
        cases hrootmem
    | cons a t => exact ⟨a, t, rfl⟩
  have hmem_isl : ∀ i ∈ s.grid.to_puzzle.islands,
      (s.grid.cells i.pos).type = NodeType.island := by
    intro i hi
    exact (to_puzzle_mem_elim hi).1
  have hpass := check_solution_pass
    (show (s.grid.to_puzzle.with_solution s.solution).solution = some s.solution from rfl)
    (show ((s.grid.to_puzzle.with_solution s.solution).islands.map Island.pos).Nodup from
      to_puzzle_pos_nodup s.grid)
    (show ∀ b ∈ s.solution,
        b.pos1 ∈ (s.grid.to_puzzle.with_solution s.solution).islands.map Island.pos ∧
        b.pos2 ∈ (s.grid.to_puzzle.with_solution s.solution).islands.map Island.pos from
      fun b hb => ⟨hposmem _ (hinv.ends b hb).1, hposmem _ (hinv.ends b hb).2⟩)
    (show ∀ i ∈ (s.grid.to_puzzle.with_solution s.solution).islands,
        i.degree = incidentSum s.solution i.pos from by
      intro i hi
      rw [(to_puzzle_mem_elim hi).2]
      exact hinv.deg i.pos (hmem_isl i hi))
    (show (s.grid.to_puzzle.with_solution s.solution).islands.head? = some first from by
      show s.grid.to_puzzle.islands.head? = some first
      rw [hfr]
      rfl)
  refine hpass.2 ?_
  intro i hi
  have hfirstisl : (s.grid.cells first.pos).type = NodeType.island :=
    hmem_isl first (by rw [hfr]; exact List.mem_cons_self first rest)
  exact Relation.ReflTransGen.trans
    (Reachable_symm (hinv.reach first.pos hfirstisl))
    (hinv.reach i.pos (hmem_isl i hi))

/-- What a successful run of the retry loop of `generate` guarantees: the
returned grid and puzzle come from a candidate state that satisfies the
invariant, met the island-count threshold at the decayed density of its
attempt, and passed the fullness test. -/
theorem generateFuel_elim (width height : Int) (dif : Difficulty)
    (hw : 1 ≤ width) (hh : 1 ≤ height) :
    ∀ (n : Nat) (density : Int) (σ : RStream) (g : Grid) (p : Puzzle),
    generateFuel width height dif n density σ = some (g, p) →
    ∃ (d : Int) (s : GenState) (root : Pos), density ≤ d ∧
      GenInv width height root s ∧ g = s.grid ∧
      p = s.grid.to_puzzle.with_solution s.solution ∧
      max 4 (width * height * 100 / d) ≤ (s.islandCount : Int) ∧
      is_candidate_full s.grid = true := by
  intro n
  induction n with
  | zero =>
      intro density σ g p hc
      cases hc
  | succ n ih =>
      intro density σ g p hc
      rw [generateFuel] at hc
      by_cases hlow : ((generate_candidate width height (tierSettings dif).max_degree
          (tierSettings dif).single_bridge_odds (tierSettings dif).shorter_bridges
          (max 4 (width * height * 100 / density))
          ((max 4 (width * height * 100 / density) * 10).toNat) σ).islandCount : Int) <
          max 4 (width * height * 100 / density)
      · rw [if_pos hlow] at hc
        obtain ⟨d, st, root, hd, rest⟩ := ih (density + 1) _ g p hc
        exact ⟨d, st, root, by omega, rest⟩
      · rw [if_neg hlow] at hc
        by_cases hfull : is_candidate_full (generate_candidate width height
            (tierSettings dif).max_degree (tierSettings dif).single_bridge_odds
            (tierSettings dif).shorter_bridges (max 4 (width * height * 100 / density))
            ((max 4 (width * height * 100 / density) * 10).toNat) σ).grid = true
        · rw [if_pos hfull] at hc
          have hc2 := Option.some.inj hc
          refine ⟨density, generate_candidate width height (tierSettings dif).max_degree
            (tierSettings dif).single_bridge_odds (tierSettings dif).shorter_bridges
            (max 4 (width * height * 100 / density))
            ((max 4 (width * height * 100 / density) * 10).toNat) σ, _, le_refl density,
            generate_candidate_inv width height (tierSettings dif).max_degree
              (tierSettings dif).single_bridge_odds (tierSettings dif).shorter_bridges
              (max 4 (width * height * 100 / density))
              ((max 4 (width * height * 100 / density) * 10).toNat) σ hw hh,
            ?_, ?_, by omega, hfull⟩
          · exact (congrArg Prod.fst hc2).symm
          · exact (congrArg Prod.snd hc2).symm
        · rw [if_neg hfull] at hc
          obtain ⟨d, st, root, hd, rest⟩ := ih density _ g p hc
          exact ⟨d, st, root, hd, rest⟩

/-- C1: for every puzzle the generator returns — any accepted board size,
any difficulty tier and any sequence of random draws — running the verifier
`check_solution` on the puzzle with its planted solution attached yields the
passing result `(True, "Success")`. -/
theorem generate_round_trip (width height : Int) (dif : Difficulty) (fuel : Nat)
    (σ : RStream) (p : Puzzle) (hw : 1 ≤ width) (hh : 1 ≤ height)
    (hgen : (generate width height dif fuel σ).map Prod.snd = some p) :
    p.check_solution = some (true, "Success") := by
  rw [Option.map_eq_some'] at hgen
  obtain ⟨⟨g, p2⟩, hg, hsnd⟩ := hgen
  dsimp only at hsnd
  subst hsnd
  unfold generate at hg
  obtain ⟨d, st, root, hd, hinv, hgrid, hp, hmin, hfull⟩ :=
    generateFuel_elim width height dif hw hh fuel _ σ g _ hg
  rw [hp]
  exact candidate_check hinv

/-- The puzzle produced by one concrete generator run (4 x 4, easy tier,
draw stream i * 37 mod 101). -/
def examplePuzzleGen : Puzzle :=
  ⟨4, 4,
    [⟨0, 1, 3⟩, ⟨0, 3, 3⟩, ⟨2, 1, 1⟩, ⟨3, 0, 1⟩, ⟨3, 3, 2⟩],
    some [⟨⟨0, 1, 0⟩, ⟨0, 3, 0⟩, false⟩, ⟨⟨0, 1, 0⟩, ⟨2, 1, 0⟩, true⟩,
      ⟨⟨0, 3, 0⟩, ⟨3, 3, 0⟩, true⟩, ⟨⟨3, 3, 0⟩, ⟨3, 0, 0⟩, true⟩]⟩

theorem generate_round_trip_witness :
    examplePuzzleGen.check_solution = some (true, "Success") :=
  generate_round_trip 4 4 Difficulty.easy 30 ⟨fun i => i * 37 % 101, 0⟩
    examplePuzzleGen (by decide) (by decide) (by rfl)

/-- Streams all of whose draws are zero. Behaviour of the generator on such
a stream is independent of the draw index, which makes the all-zero run
analysable for every fuel. -/
def CZero (σ : RStream) : Prop := ∀ k, σ.base k = 0

theorem czero_head {σ : RStream} (h : CZero σ) : σ.head = 0 := h σ.ofs

theorem czero_rTail {σ : RStream} (h : CZero σ) : CZero (rTail σ) := fun k => h k

theorem randInt_czero_fst {lo hi : Int} {σ : RStream} (h : CZero σ) :
    (randInt lo hi σ).1 = lo := by
  unfold randInt
  dsimp only
  rw [czero_head h, Nat.zero_mod]
  simp

theorem randInt_czero_snd {lo hi : Int} {σ : RStream} (h : CZero σ) :
    CZero (randInt lo hi σ).2 := czero_rTail h

theorem rChoice_czero_fst {α : Type} {l : List α} {dflt : α} {σ : RStream}
    (h : CZero σ) : (rChoice l dflt σ).1 = l.getD 0 dflt := by
  unfold rChoice
  dsimp only
  rw [czero_head h, Nat.zero_mod]

theorem rChoice_czero_snd {α : Type} {l : List α} {dflt : α} {σ : RStream}
    (h : CZero σ) : CZero (rChoice l dflt σ).2 := czero_rTail h

theorem rBernoulli_czero_fst {σ : RStream} (h : CZero σ) : (rBernoulli σ).1 = true := by
  unfold rBernoulli
  dsimp only
  rw [czero_head h]
  rfl

theorem grd_czero_fst {g : Grid} {x y : Int} {σ : RStream} (h : CZero σ) :
    (g.get_random_direction x y σ).1 =
      if (g.availableDirections x y).length = 0 then none
      else some ((g.availableDirections x y).getD 0 Direction.up) := by
  unfold Grid.get_random_direction
  by_cases hl : (g.availableDirections x y).length = 0
  · rw [if_pos hl, if_pos hl]
  · rw [if_neg hl, if_neg hl]
    dsimp only
    rw [rChoice_czero_fst h]

theorem grd_czero_snd {g : Grid} {x y : Int} {σ : RStream} (h : CZero σ) :
    CZero (g.get_random_direction x y σ).2 := by
  unfold Grid.get_random_direction
  by_cases hl : (g.availableDirections x y).length = 0
  · rw [if_pos hl]
    exact h
  · rw [if_neg hl]
    exact czero_rTail h

theorem thick_czero_fst {g : Grid} {x y md : Int} {sbo : ℚ} {σ : RStream}
    (h : CZero σ) : (g.get_random_bridge_thickness x y md sbo σ).1 = 1 := by
  unfold Grid.get_random_bridge_thickness
  by_cases hc : 2 ≤ md - (g.cells (x, y)).degree
  · rw [if_pos hc]
    dsimp only
    rw [rBernoulli_czero_fst h]
    rfl
  · rw [if_neg hc]

theorem thick_czero_snd {g : Grid} {x y md : Int} {sbo : ℚ} {σ : RStream}
    (h : CZero σ) : CZero (g.get_random_bridge_thickness x y md sbo σ).2 := by
  unfold Grid.get_random_bridge_thickness
  by_cases hc : 2 ≤ md - (g.cells (x, y)).degree
  · rw [if_pos hc]
    exact czero_rTail h
  · rw [if_neg hc]
    exact h

theorem len_czero_fst {g : Grid} {x y : Int} {d : Direction} {sb : Bool}
    {σ : RStream} (h : CZero σ) : (g.get_random_bridge_length x y d sb σ).1 = 1 := by
  unfold Grid.get_random_bridge_length
  cases sb
  · dsimp only
    rw [if_neg (by simp)]
    exact randInt_czero_fst h
  · dsimp only
    rw [if_pos rfl]
    dsimp only
    rw [randInt_czero_fst h, randInt_czero_fst (randInt_czero_snd h)]
    rfl

theorem len_czero_snd {g : Grid} {x y : Int} {d : Direction} {sb : Bool}
    {σ : RStream} (h : CZero σ) : CZero (g.get_random_bridge_length x y d sb σ).2 := by
  unfold Grid.get_random_bridge_length
  cases sb
  · dsimp only
    rw [if_neg (by simp)]
    exact czero_rTail h
  · dsimp only
    rw [if_pos rfl]
    exact czero_rTail (czero_rTail h)

/-- On all-zero streams a loop iteration is determined by the non-stream
state: two runs from the same data stay in lockstep. -/
theorem genIteration_czero (md : Int) (sbo : ℚ) (sb : Bool) {s1 s2 : GenState}
    (hg : s1.grid = s2.grid) (hc : s1.islandCount = s2.islandCount)
    (hs : s1.solution = s2.solution) (ht : s1.toExpand = s2.toExpand)
    (h1 : CZero s1.σ) (h2 : CZero s2.σ) :
    (genIteration md sbo sb s1).grid = (genIteration md sbo sb s2).grid ∧
    (genIteration md sbo sb s1).islandCount = (genIteration md sbo sb s2).islandCount ∧
    (genIteration md sbo sb s1).solution = (genIteration md sbo sb s2).solution ∧
    (genIteration md sbo sb s1).toExpand = (genIteration md sbo sb s2).toExpand ∧
    CZero (genIteration md sbo sb s1).σ ∧ CZero (genIteration md sbo sb s2).σ := by
  obtain ⟨g1, c1, sol1, te1, σ1⟩ := s1
  obtain ⟨g2, c2, sol2, te2, σ2⟩ := s2
  dsimp only at hg hc hs ht h1 h2
  subst hg
  subst hc
  subst hs
  subst ht
  simp only [genIteration]
  rw [rChoice_czero_fst h1, rChoice_czero_fst h2]
  rw [grd_czero_fst (rChoice_czero_snd h1), grd_czero_fst (rChoice_czero_snd h2)]
  rcases hdc : (if (g1.availableDirections (te1.getD 0 ((0, 0) : Pos)).1
      (te1.getD 0 ((0, 0) : Pos)).2).length = 0 then none
    else some ((g1.availableDirections (te1.getD 0 ((0, 0) : Pos)).1
      (te1.getD 0 ((0, 0) : Pos)).2).getD 0 Direction.up)) with _ | dir
  · exact ⟨rfl, rfl, rfl, rfl, grd_czero_snd (rChoice_czero_snd h1),
      grd_czero_snd (rChoice_czero_snd h2)⟩
  · dsimp only
    by_cases hcap : md ≤ (g1.cells (te1.getD 0 ((0, 0) : Pos))).degree
    · rw [if_pos hcap, if_pos hcap]
      exact ⟨rfl, rfl, rfl, rfl, grd_czero_snd (rChoice_czero_snd h1),
        grd_czero_snd (rChoice_czero_snd h2)⟩
    · rw [if_neg hcap, if_neg hcap]
      rw [thick_czero_fst (grd_czero_snd (rChoice_czero_snd h1)),
        thick_czero_fst (grd_czero_snd (rChoice_czero_snd h2))]
      rw [len_czero_fst (thick_czero_snd (grd_czero_snd (rChoice_czero_snd h1))),
        len_czero_fst (thick_czero_snd (grd_czero_snd (rChoice_czero_snd h2)))]
      by_cases hadj : adjacentIslandFound g1
          ((te1.getD 0 ((0, 0) : Pos)).1 + dir.get_vector.1 * (1 + 1))
          ((te1.getD 0 ((0, 0) : Pos)).2 + dir.get_vector.2 * (1 + 1)) = true
      · rw [if_pos hadj, if_pos hadj]
        exact ⟨rfl, rfl, rfl, rfl,
          len_czero_snd (thick_czero_snd (grd_czero_snd (rChoice_czero_snd h1))),
          len_czero_snd (thick_czero_snd (grd_czero_snd (rChoice_czero_snd h2)))⟩
      · rw [if_neg hadj, if_neg hadj]
        exact ⟨rfl, rfl, rfl, rfl,
          len_czero_snd (thick_czero_snd (grd_czero_snd (rChoice_czero_snd h1))),
          len_czero_snd (thick_czero_snd (grd_czero_snd (rChoice_czero_snd h2)))⟩

/-- Lockstep through the whole growth loop on all-zero streams. -/
theorem genLoop_czero (md : Int) (sbo : ℚ) (sb : Bool) (minc : Int) :
    ∀ (n : Nat) (s1 s2 : GenState),
    s1.grid = s2.grid → s1.islandCount = s2.islandCount →
    s1.solution = s2.solution → s1.toExpand = s2.toExpand →
    CZero s1.σ → CZero s2.σ →
    (genLoop md sbo sb minc n s1).grid = (genLoop md sbo sb minc n s2).grid ∧
    (genLoop md sbo sb minc n s1).islandCount =
      (genLoop md sbo sb minc n s2).islandCount ∧
    (genLoop md sbo sb minc n s1).solution = (genLoop md sbo sb minc n s2).solution ∧
    (genLoop md sbo sb minc n s1).toExpand = (genLoop md sbo sb minc n s2).toExpand ∧
    CZero (genLoop md sbo sb minc n s1).σ ∧ CZero (genLoop md sbo sb minc n s2).σ := by
  intro n
  induction n with
  | zero =>
      intro s1 s2 hg hc hs ht h1 h2
      exact ⟨hg, hc, hs, ht, h1, h2⟩
  | succ n ih =>
      intro s1 s2 hg hc hs ht h1 h2
      rw [genLoop, genLoop]
      by_cases hne : s1.toExpand = []
      · have hne2 : s2.toExpand = [] := by
          rw [← ht]
          exact hne
        rw [if_pos hne, if_pos hne2]
        exact ⟨hg, hc, hs, ht, h1, h2⟩
      · have hne2 : ¬ s2.toExpand = [] := by
          rw [← ht]
          exact hne
        rw [if_neg hne, if_neg hne2]
        by_cases hcnt : minc ≤ (s1.islandCount : Int)
        · have hcnt2 : minc ≤ (s2.islandCount : Int) := by
            rw [← hc]
            exact hcnt
          rw [if_pos hcnt, if_pos hcnt2]
          exact ⟨hg, hc, hs, ht, h1, h2⟩
        · have hcnt2 : ¬ minc ≤ (s2.islandCount : Int) := by
            rw [← hc]
            exact hcnt
          rw [if_neg hcnt, if_neg hcnt2]
          obtain ⟨a, b, c, d, e, f⟩ := genIteration_czero md sbo sb hg hc hs ht h1 h2
          exact ih _ _ a b c d e f

/-- The island count of a candidate and the all-zero property of its final
stream do not depend on the offset of an all-zero draw stream. -/
theorem generate_candidate_czero (w h md : Int) (sbo : ℚ) (sb : Bool) (minc : Int)
    (cycles : Nat) (σ1 σ2 : RStream) (h1 : CZero σ1) (h2 : CZero σ2) :
    (generate_candidate w h md sbo sb minc cycles σ1).islandCount =
      (generate_candidate w h md sbo sb minc cycles σ2).islandCount ∧
    CZero (generate_candidate w h md sbo sb minc cycles σ1).σ ∧
    CZero (generate_candidate w h md sbo sb minc cycles σ2).σ := by
  simp only [generate_candidate]
  rw [randInt_czero_fst h1, randInt_czero_fst h2,
    randInt_czero_fst (randInt_czero_snd h1), randInt_czero_fst (randInt_czero_snd h2)]
  obtain ⟨a, b, c, d, e, f⟩ := genLoop_czero md sbo sb minc cycles
    ⟨(Grid.init w h).toIsland (0, 0) 0, 0, [], [((0, 0) : Pos)],
      (randInt 0 (h - 1) (randInt 0 (w - 1) σ1).2).2⟩
    ⟨(Grid.init w h).toIsland (0, 0) 0, 0, [], [((0, 0) : Pos)],
      (randInt 0 (h - 1) (randInt 0 (w - 1) σ2).2).2⟩
    rfl rfl rfl rfl
    (@randInt_czero_snd 0 (h - 1) (randInt 0 (w - 1) σ1).2
      (@randInt_czero_snd 0 (w - 1) σ1 h1))
    (@randInt_czero_snd 0 (h - 1) (randInt 0 (w - 1) σ2).2
      (@randInt_czero_snd 0 (w - 1) σ2 h2))
  exact ⟨b, e, f⟩

set_option maxRecDepth 20000 in
theorem cand44_count4 :
    (generate_candidate 4 4 (tierSettings Difficulty.extreme).max_degree
      (tierSettings Difficulty.extreme).single_bridge_odds
      (tierSettings Difficulty.extreme).shorter_bridges 4 ((4 : Int) * 10).toNat
      ⟨fun _ => 0, 0⟩).islandCount = 3 := by decide

set_option maxRecDepth 20000 in
theorem cand44_count5 :
    (generate_candidate 4 4 (tierSettings Difficulty.extreme).max_degree
      (tierSettings Difficulty.extreme).single_bridge_odds
      (tierSettings Difficulty.extreme).shorter_bridges 5 ((5 : Int) * 10).toNat
      ⟨fun _ => 0, 0⟩).islandCount = 3 := by decide

set_option maxRecDepth 20000 in
theorem cand44_count6 :
    (generate_candidate 4 4 (tierSettings Difficulty.extreme).max_degree
      (tierSettings Difficulty.extreme).single_bridge_odds
      (tierSettings Difficulty.extreme).shorter_bridges 6 ((6 : Int) * 10).toNat
      ⟨fun _ => 0, 0⟩).islandCount = 3 := by decide

/-- On a 4 x 4 extreme board the all-zero draw stream grows only 3 islands
(one candidate run exhausts its frontier at 3), while every decayed density
at or beyond the tier's still demands at least 4; the retry loop of
`generate` therefore never stops, whatever its fuel. -/
theorem gen44_nonterm : ∀ (n : Nat) (d : Int), 250 ≤ d → ∀ σ : RStream, CZero σ →
    generateFuel 4 4 Difficulty.extreme n d σ = none := by
  intro n
  induction n with
  | zero =>
      intro d hd σ hσ
      rfl
  | succ n ih =>
      intro d hd σ hσ
      have h7 : (1600 : Int) / d < 7 :=
        (Int.ediv_lt_iff_lt_mul (by omega)).mpr (by omega)
      have hdivle : (4 * 4 * 100 : Int) / d ≤ 6 := by
        rw [show ((4 * 4 * 100 : Int)) = 1600 by norm_num]
        omega
      have hdivge : (0 : Int) ≤ 4 * 4 * 100 / d := Int.ediv_nonneg (by norm_num) (by omega)
      have hm : max 4 ((4 : Int) * 4 * 100 / d) = 4 ∨
          max 4 ((4 : Int) * 4 * 100 / d) = 5 ∨
          max 4 ((4 : Int) * 4 * 100 / d) = 6 := by omega
      rw [generateFuel]
      rcases hm with hm | hm | hm
      · rw [hm]
        have hcz := generate_candidate_czero 4 4 (tierSettings Difficulty.extreme).max_degree
          (tierSettings Difficulty.extreme).single_bridge_odds
          (tierSettings Difficulty.extreme).shorter_bridges 4 ((4 : Int) * 10).toNat
          σ ⟨fun _ => 0, 0⟩ hσ (fun _ => rfl)
        rw [hcz.1, cand44_count4, if_pos (by decide)]
        exact ih (d + 1) (by omega) _ hcz.2.1
      · rw [hm]
        have hcz := generate_candidate_czero 4 4 (tierSettings Difficulty.extreme).max_degree
          (tierSettings Difficulty.extreme).single_bridge_odds
          (tierSettings Difficulty.extreme).shorter_bridges 5 ((5 : Int) * 10).toNat
          σ ⟨fun _ => 0, 0⟩ hσ (fun _ => rfl)
        rw [hcz.1, cand44_count5, if_pos (by decide)]
        exact ih (d + 1) (by omega) _ hcz.2.1
      · rw [hm]
        have hcz := generate_candidate_czero 4 4 (tierSettings Difficulty.extreme).max_degree
          (tierSettings Difficulty.extreme).single_bridge_odds
          (tierSettings Difficulty.extreme).shorter_bridges 6 ((6 : Int) * 10).toNat
          σ ⟨fun _ => 0, 0⟩ hσ (fun _ => rfl)
        rw [hcz.1, cand44_count6, if_pos (by decide)]
        exact ih (d + 1) (by omega) _ hcz.2.1

set_option maxRecDepth 100000 in
set_option maxHeartbeats 12000000 in
/-- C8 counterexample: the claim fails on both counts. A complete run on the
5 x 5 extreme board with the all-zero draw stream returns a puzzle with 9
islands, strictly below the tier-density threshold
max 4 (floor (5 * 5 / 2.5)) = 10 the claim asserts for every returned
puzzle; and on the 4 x 4 extreme board the all-zero draw stream makes the
retry loop of `generate` run forever, so termination fails as well. -/
theorem generate_threshold_counterexample :
    ((generate 5 5 Difficulty.extreme 40 ⟨fun _ => 0, 0⟩).map
      (fun gp => decide ((gp.2.islands.length : Int) <
        max 4 (5 * 5 * 100 / (tierSettings Difficulty.extreme).max_island_density100))) =
      some true) ∧
    ∀ n : Nat, generate 4 4 Difficulty.extreme n ⟨fun _ => 0, 0⟩ = none := by
  constructor
  · decide
  · intro n
    show generateFuel 4 4 Difficulty.extreme n 250 ⟨fun _ => 0, 0⟩ = none
    exact gen44_nonterm n 250 (by norm_num) _ (fun _ => rfl)

/-- C8 (amended): termination is not guaranteed, and the tier-density
threshold only holds at the decayed density of the accepted attempt.
Whenever `generate` does return, the returned board passes the fullness test
(no fully empty outer row or column) and the puzzle's island count strictly
exceeds max 4 (floor (width x height x 100 / d)) for some density d at or
beyond the tier's starting density. -/
theorem generate_post (width height : Int) (dif : Difficulty) (fuel : Nat)
    (σ : RStream) (g : Grid) (p : Puzzle) (hw : 1 ≤ width) (hh : 1 ≤ height)
    (hgen : generate width height dif fuel σ = some (g, p)) :
    is_candidate_full g = true ∧
    ∃ d : Int, (tierSettings dif).max_island_density100 ≤ d ∧
      max 4 (width * height * 100 / d) < (p.islands.length : Int) := by
  unfold generate at hgen
  obtain ⟨d, st, root, hd, hinv, hgrid, hp, hmin, hfull⟩ :=
    generateFuel_elim width height dif hw hh fuel _ σ g p hgen
  refine ⟨by rw [hgrid]; exact hfull, d, hd, ?_⟩
  have hlen : p.islands.length = st.islandCount + 1 := by
    rw [hp]
    exact hinv.count
  rw [hlen]
  push_cast
  omega

/-- The complete 5 x 5 extreme run of the counterexample stream. -/
def exampleGenRun : Option (Grid × Puzzle) :=
  generate 5 5 Difficulty.extreme 40 ⟨fun _ => 0, 0⟩

/-- Its grid component. -/
def exampleGenGrid : Grid :=
  (exampleGenRun.getD (Grid.init 0 0, Puzzle.mk 0 0 [] none)).1

/-- Its puzzle component. -/
def exampleGenPuzzle : Puzzle :=
  (exampleGenRun.getD (Grid.init 0 0, Puzzle.mk 0 0 [] none)).2

set_option maxRecDepth 100000 in
set_option maxHeartbeats 12000000 in
theorem generate_post_witness :
    is_candidate_full exampleGenGrid = true ∧
    ∃ d : Int, (tierSettings Difficulty.extreme).max_island_density100 ≤ d ∧
      max 4 (5 * 5 * 100 / d) < (exampleGenPuzzle.islands.length : Int) :=
  generate_post 5 5 Difficulty.extreme 40 ⟨fun _ => 0, 0⟩ exampleGenGrid
    exampleGenPuzzle (by decide) (by decide) (by rfl)

end Bridges
